import Mathlib

/-!
Verification of the weekly pain-literature digest bot (`bot.py`).

Text is modelled as `List Char` (ASCII fragment of Python `str`); every
function below is a direct shallow embedding of the corresponding Python
function in `bot.py`.  Network I/O is modelled by passing the fetched
payload (or the fetch function) as an explicit argument; everything else
is pure, exactly as in the source.  All definitions are structurally
recursive so that concrete runs evaluate inside the kernel.
-/

namespace PainBot


/-- Python strings are modelled as lists of characters. -/
abbrev Str := List Char

/-- ASCII whitespace recognised by Python's `str.split` / `str.strip` /
regex `\s` (we restrict to the ASCII fragment). -/
def isPySpace (c : Char) : Bool :=
  c = ' ' || c = '\t' || c = '\n' || c = '\x0d' || c = '\x0b' || c = '\x0c'

/-- Sentence-terminal punctuation of the regex `(?<=[.!?])\s+` in
`last_sentences`. -/
def isSentEnd (c : Char) : Bool :=
  c = '.' || c = '!' || c = '?'

/-- Does the list start with a whitespace character? -/
def headSp (l : Str) : Bool :=
  match l with
  | [] => false
  | d :: _ => isPySpace d

/-- `leadsWith n l`: `n` is a prefix of `l`. -/
def leadsWith : Str → Str → Bool
  | [], _ => true
  | _ :: _, [] => false
  | a :: as, b :: bs => a = b && leadsWith as bs

/-- `occursIn n l`: `n` occurs contiguously inside `l` (regex-free model of
Python's `in` on strings). -/
def occursIn (n : Str) : Str → Bool
  | [] => n.isEmpty
  | c :: t => leadsWith n (c :: t) || occursIn n t

/-- Python `str.strip()` (ASCII whitespace). -/
def pyStripL (l : Str) : Str :=
  ((l.dropWhile isPySpace).reverse.dropWhile isPySpace).reverse

/-- Worker for `wordsSplit`: `cur` is the reversed current word. -/
def wordsAux (cur : Str) : Str → List Str
  | [] => if cur = [] then [] else [cur.reverse]
  | c :: l =>
    if isPySpace c then
      if cur = [] then wordsAux [] l else cur.reverse :: wordsAux [] l
    else wordsAux (c :: cur) l

/-- Python `str.split()` with no separator: maximal runs of
non-whitespace characters, in order; empty pieces never occur. -/
def wordsSplit (l : Str) : List Str := wordsAux [] l

/-- Is the head of the reversed accumulator (i.e. the previous character)
sentence-terminal punctuation? -/
def headPunct (cur : Str) : Bool :=
  match cur with
  | [] => false
  | c :: _ => isSentEnd c

/-- Worker for `sentSplit`: when `sk` is true we are consuming the
whitespace run of a separator; otherwise `cur` is the reversed current
piece. -/
def sentGo (sk : Bool) (cur : Str) : Str → List Str
  | [] => if sk then [[]] else [cur.reverse]
  | c :: l =>
    if sk then
      if isPySpace c then sentGo true [] l else sentGo false [c] l
    else
      if isPySpace c && headPunct cur then cur.reverse :: sentGo true [] l
      else sentGo false (c :: cur) l

/-- Model of `re.split(r'(?<=[.!?])\s+', text)`: a separator is a maximal
whitespace run whose preceding character is `.`, `!` or `?`. -/
def sentSplit (l : Str) : List Str := sentGo false [] l

/-- Exact split on a single separator character (used for the `/`-split in
date parsing); keeps empty pieces, like Python `str.split('/')`. -/
def splitChar (sep : Char) : Str → List Str
  | [] => [[]]
  | c :: l =>
    if c = sep then [] :: splitChar sep l
    else
      match splitChar sep l with
      | [] => [[c]]
      | w :: ws => (c :: w) :: ws

/-- Python `sep.join(pieces)`. -/
def joinSepL (sep : Str) : List Str → Str
  | [] => []
  | [t] => t
  | t :: t2 :: ts => t ++ sep ++ joinSepL sep (t2 :: ts)

/-- Python `str.lower()` (ASCII fragment). -/
def lowerL (l : Str) : Str := l.map Char.toLower

/-- Last element with default (own recursion, for easy rewriting). -/
def lastD (d : Char) : Str → Char
  | [] => d
  | [c] => c
  | _ :: c2 :: t => lastD d (c2 :: t)

/-- Apply `f` to the last element of a list, if any. -/
def modLast (f : Str → Str) : List Str → List Str
  | [] => []
  | [w] => [f w]
  | w :: w2 :: ws => w :: modLast f (w2 :: ws)

/-!
## The program model

Everything below is translated from `bot.py`.  Configuration constants keep
their values from the source; environment-dependent configuration
(`ABSTRACTS_BASE_URL`) is passed as a parameter (empty = unset).
-/

/-- `JOURNALS` from `bot.py`. -/
def JOURNALS : List Str :=
  ["Pain[ta]".data, "Pain Physician[ta]".data, "Pain Med[ta]".data,
   "Reg Anesth Pain Med[ta]".data, "J Pain[ta]".data, "Interv Pain Med[ta]".data,
   "Cephalalgia[ta]".data, "J Headache Pain[ta]".data, "Pain Rep[ta]".data,
   "J Pain Res[ta]".data, "Eur J Pain[ta]".data, "Pain Ther[ta]".data,
   "Scand J Pain[ta]".data, "Mol Pain[ta]".data, "Pain Pract[ta]".data,
   "Pain Res Manag[ta]".data]

/-- `KEYWORDS` from `bot.py` (the quoted MeSH phrases contain literal
double quotes, as in the source). -/
def KEYWORDS : List Str :=
  ["Pain Management".data, "Pain Measurement".data, "Analgesia".data,
   "\"Analgesics, Non-Narcotic\"".data, "\"Analgesics, Opioid\"".data,
   "\"Nerve Block\"".data, "\"Epidural Analgesia\"".data,
   "\"Spinal Cord Stimulation\"".data, "Neuromodulation".data,
   "\"Local Anesthesia\"".data, "\"Anesthesia, Local\"".data,
   "\"Anesthesia, Epidural\"".data, "Injections".data,
   "\"Acupuncture Therapy\"".data, "\"Physical Therapy Modalities\"".data,
   "\"Surgical Procedures, Operative\"".data, "Therapeutics".data]

/-- `INCLUDE_CONCLUSION_SNIPPET` from `bot.py`. -/
def INCLUDE_CONCLUSION_SNIPPET : Bool := true

/-- `SNIPPET_MAX_WORDS` from `bot.py`. -/
def SNIPPET_MAX_WORDS : Nat := 70

/-- `pubmed_query` from `bot.py`:
`j = " OR ".join(journals); k = " OR ".join(keywords) if keywords else "";`
`core = f"({j})" if j else ""`, then `AND`-append the keyword group and the
humans group when non-empty, finally `.strip()`.  The appended chunks are
the exact characters of `f"{core} AND ({k})"` and
`f"{core} AND (humans[MeSH Terms])"`. -/
def pubmedQuery (journals keywords : List Str) (humans : Bool) : Str :=
  let j := joinSepL " OR ".data journals
  let k := if keywords ≠ [] then joinSepL " OR ".data keywords else []
  let core0 := if j ≠ [] then '(' :: (j ++ [')']) else []
  let core1 :=
    if k ≠ [] then
      core0 ++ (' ' :: ("AND".data ++ (' ' :: ('(' :: (k ++ [')'])))))
    else core0
  let core2 :=
    if humans then
      core1 ++ (' ' :: ("AND".data ++ (' ' :: "(humans[MeSH Terms])".data)))
    else core1
  pyStripL core2

/-! ### Date parsing and ranking (`parse_sortdate` and the sort in `esummary`) -/

/-- Gregorian leap year, as validated by `datetime.datetime`. -/
def isLeapYear (y : Nat) : Bool :=
  y % 4 = 0 && (y % 100 ≠ 0 || y % 400 = 0)

/-- Days in a month, as validated by `datetime.datetime`. -/
def daysInMonth (y m : Nat) : Nat :=
  if m = 2 then (if isLeapYear y then 29 else 28)
  else if m = 4 || m = 6 || m = 9 || m = 11 then 30
  else 31

/-- Decimal value of a digit string. -/
def natOfDigits (l : Str) : Nat :=
  l.foldl (fun a c => 10 * a + (c.toNat - '0'.toNat)) 0

/-- Model of `datetime.datetime.strptime(s, "%Y/%m/%d")` (ASCII digits):
CPython's `%Y` matches exactly four digits, `%m` one or two digits with
value 1..12, `%d` one or two digits with value 1..31, the literal `/` must
match, the whole string must be consumed, and the resulting triple must be
a valid proleptic-Gregorian date with year at least `MINYEAR = 1`.
Returns `none` exactly when `strptime` raises. -/
def parseYMD (s : Str) : Option (Nat × Nat × Nat) :=
  match splitChar '/' s with
  | [ys, ms, ds] =>
    if ys.length = 4 && ys.all Char.isDigit
        && (ms.length = 1 || ms.length = 2) && ms.all Char.isDigit
        && (ds.length = 1 || ds.length = 2) && ds.all Char.isDigit then
      let y := natOfDigits ys
      let m := natOfDigits ms
      let d := natOfDigits ds
      if 1 ≤ y && 1 ≤ m && m ≤ 12 && 1 ≤ d && d ≤ daysInMonth y m then
        some (y, m, d)
      else none
    else none
  | _ => none

/-- `datetime.datetime.min` is year 1, month 1, day 1. -/
def MIN_DATE : Nat × Nat × Nat := (1, 1, 1)

/-- `parse_sortdate` from `bot.py`: parse, and on any failure return
`datetime.min` (the function never raises). -/
def parseSortdate (s : Str) : Nat × Nat × Nat :=
  match parseYMD s with
  | some t => t
  | none => MIN_DATE

/-- One record produced by `esummary` (all fields are strings, as in the
source dict). -/
structure SummaryItem where
  pmid : Str
  title : Str
  journal : Str
  date : Str
  doi : Str
  url : Str
deriving DecidableEq

/-- Dedup keys: `("doi", doi.lower())` when the DOI is non-empty, else
`("pmid", pmid)`. -/
inductive DedupKey where
  | doiKey (v : Str)
  | pmidKey (v : Str)
deriving DecidableEq

/-- The key computed in the dedup loop of `esummary`. -/
def dedupKey (it : SummaryItem) : DedupKey :=
  if it.doi ≠ [] then DedupKey.doiKey (lowerL it.doi) else DedupKey.pmidKey it.pmid

/-- The dedup loop of `esummary`: a dict insert guarded by
`if key not in dedup`, so the first-seen record per key wins and
`list(dedup.values())` preserves first-insertion order. -/
def dedupAux : List DedupKey → List SummaryItem → List SummaryItem
  | _, [] => []
  | seen, r :: rs =>
    if dedupKey r ∈ seen then dedupAux seen rs
    else r :: dedupAux (dedupKey r :: seen) rs

/-- `items = list(dedup.values())` after the dedup loop. -/
def dedupItems (l : List SummaryItem) : List SummaryItem := dedupAux [] l

/-- Strict lexicographic order on `(year, month, day)`, i.e. `datetime`
comparison restricted to dates. -/
def dateLt (a b : Nat × Nat × Nat) : Bool :=
  a.1 < b.1 || (a.1 = b.1 && (a.2.1 < b.2.1 || (a.2.1 = b.2.1 && a.2.2 < b.2.2)))

/-- Sort key of an item, `parse_sortdate(x["date"])`. -/
def sortKey (it : SummaryItem) : Nat × Nat × Nat := parseSortdate it.date

/-- Stable insertion for descending order: the new element goes after every
element whose key is greater than or equal to its own. -/
def insertDesc (x : SummaryItem) : List SummaryItem → List SummaryItem
  | [] => [x]
  | y :: ys =>
    if dateLt (sortKey y) (sortKey x) then x :: y :: ys
    else y :: insertDesc x ys

/-- Model of `items.sort(key=parse_sortdate, reverse=True)`: Python's sort
is stable and `reverse=True` reverses the comparison only, so the result is
the unique stable descending reordering; stable insertion sort computes
exactly that. -/
def sortDesc (l : List SummaryItem) : List SummaryItem :=
  l.foldl (fun acc x => insertDesc x acc) []

/-- The pure part of `esummary`: the empty-input shortcut
(`if not pmids: return []`, before any network call), then dedup and
ranking of the parsed summary records (`raw` stands for the per-id records
parsed from the summary response). -/
def esummaryItems (pmids : List Str) (raw : List SummaryItem) : List SummaryItem :=
  if pmids = [] then [] else sortDesc (dedupItems raw)

/-! ### Metadata extraction (`efetch_abstract_map`) -/

/-- One `<AbstractText>` element: the `Label` attribute, the `NlmCategory`
attribute (either may be absent), and the element text
(`"".join(t.itertext())`). -/
structure AbsSection where
  label : Option Str
  nlmCategory : Option Str
  text : Str
deriving DecidableEq

/-- Python `a or b` for an optional string against a string default
(`None` and `""` are falsy). -/
def truthyOr (a : Option Str) (b : Str) : Str :=
  match a with
  | some s => if s = [] then b else s
  | none => b

/-- `label = (t.get("Label") or t.get("NlmCategory") or "").strip().lower()`. -/
def sectionLabel (s : AbsSection) : Str :=
  lowerL (pyStripL (truthyOr s.label (truthyOr s.nlmCategory [])))

/-- `text = "".join(t.itertext()).strip()`. -/
def sectionText (s : AbsSection) : Str := pyStripL s.text

/-- `"conclusion" in label` (substring containment on the lowercased,
stripped label). -/
def isConclSection (s : AbsSection) : Bool :=
  occursIn "conclusion".data (sectionLabel s)

/-- The `abstract_texts` list: the non-empty section texts, in document
order (`if not text: continue`). -/
def abstractTexts (secs : List AbsSection) : List Str :=
  (secs.filter (fun s => sectionText s ≠ [])).map sectionText

/-- The `conclusion_texts` list: the non-empty section texts whose label
contains `"conclusion"`, in document order. -/
def conclusionTexts (secs : List AbsSection) : List Str :=
  (secs.filter (fun s => sectionText s ≠ [] ∧ isConclSection s = true)).map sectionText

/-- The per-article metadata dict value `{"abstract": ..., "conclusion": ...}`. -/
structure MetaEntry where
  abstract : Option Str
  conclusion : Option Str
deriving DecidableEq

/-- The per-article extraction in `efetch_abstract_map`:
`" ".join(abstract_texts).strip() if abstract_texts else None`, and the
same for the conclusion sections. -/
def extractMeta (secs : List AbsSection) : MetaEntry :=
  { abstract :=
      if abstractTexts secs ≠ [] then
        some (pyStripL (joinSepL " ".data (abstractTexts secs)))
      else none,
    conclusion :=
      if conclusionTexts secs ≠ [] then
        some (pyStripL (joinSepL " ".data (conclusionTexts secs)))
      else none }

/-- One `<PubmedArticle>` as parsed by `efetch_abstract_map`: the PMID
element text (absent element modelled as `none`) and the list of
`<AbstractText>` sections (no `<Abstract>` element gives `[]`). -/
structure FetchedArticle where
  pmid : Option Str
  sections : List AbsSection

/-- Insert-or-overwrite into an association list (Python dict assignment
`out[pid] = ...`, preserving first-insertion order). -/
def upsert (k : Str) (v : MetaEntry) : List (Str × MetaEntry) → List (Str × MetaEntry)
  | [] => [(k, v)]
  | (k', v') :: t => if k' = k then (k, v) :: t else (k', v') :: upsert k v t

/-- The article loop of `efetch_abstract_map`: skip articles with a missing
or empty PMID element (`if pmid_el is None or not pmid_el.text: continue`),
otherwise store the extracted entry under the stripped PMID. -/
def efetchFold (out : List (Str × MetaEntry)) : List FetchedArticle → List (Str × MetaEntry)
  | [] => out
  | a :: rest =>
    match a.pmid with
    | none => efetchFold out rest
    | some ptext =>
      if ptext = [] then efetchFold out rest
      else efetchFold (upsert (pyStripL ptext) (extractMeta a.sections) out) rest

/-- `for i in range(0, len(pmids), BATCH)` with `BATCH = 100`. -/
def chunks100 (l : List Str) : List (List Str) :=
  if h : l = [] then []
  else l.take 100 :: chunks100 (l.drop 100)
termination_by l.length
decreasing_by
  simp only [List.length_drop]
  cases l with
  | nil => exact absurd rfl h
  | cons x xs => simp only [List.length_cons]; omega

/-- `efetch_abstract_map`: `if not pmids: return out` (before any network
call), otherwise process the fetched articles chunk by chunk; `fetch`
stands for the network fetch plus XML parsing of one chunk. -/
def efetchAbstractMap (pmids : List Str)
    (fetch : List Str → List FetchedArticle) : List (Str × MetaEntry) :=
  efetchFold [] ((chunks100 pmids).map fetch).flatten

/-- `meta_map.get(pmid)` on the association-list model. -/
def lookupMeta (mm : List (Str × MetaEntry)) (k : Str) : Option MetaEntry :=
  (mm.find? (fun p => p.1 = k)).map (fun p => p.2)

/-! ### Snippets (`last_sentences`, `trim_words`, `build_snippet`) -/

/-- `last_sentences` from `bot.py`: split the stripped text on
sentence-terminal punctuation followed by whitespace, drop empty pieces,
return the stripped join of the last `n` pieces (or `""` when there are no
pieces). -/
def lastSentences (text : Str) (n : Nat) : Str :=
  let parts := (sentSplit (pyStripL text)).filter (fun p => p ≠ [])
  if parts = [] then []
  else pyStripL (joinSepL " ".data (parts.drop (parts.length - n)))

/-- `trim_words` from `bot.py`: `words = text.split()`; return the text
unchanged when it has at most `max_words` words, else the first
`max_words` words joined by single spaces with `…` appended. -/
def trimWords (text : Str) (maxWords : Nat) : Str :=
  let words := wordsSplit text
  if words.length ≤ maxWords then text
  else joinSepL " ".data (words.take maxWords) ++ "…".data

/-- `build_snippet` from `bot.py`.  A falsy argument (missing dict entry)
gives `(None, None)`; otherwise the stripped conclusion wins, then the
stripped abstract with the `last_sentences(...) or abstract` fallback,
else `(None, None)`. -/
def buildSnippet (e : Option MetaEntry) : Option Str × Option Str :=
  match e with
  | none => (none, none)
  | some me =>
    let abstract := pyStripL (me.abstract.getD [])
    let concl := pyStripL (me.conclusion.getD [])
    if concl ≠ [] then
      (some "Conclusion".data, some (trimWords concl SNIPPET_MAX_WORDS))
    else if abstract ≠ [] then
      let fallback :=
        if lastSentences abstract 2 ≠ [] then lastSentences abstract 2 else abstract
      (some "From abstract".data, some (trimWords fallback SNIPPET_MAX_WORDS))
    else (none, none)

/-! ### Rendering (`build_html`, `build_text`, `build_abstracts_page`) -/

/-- HTML escaping as done by `html.escape` (with its default
`quote=True`): `&`, `<`, `>`, `"` and the apostrophe are replaced.  The
sequential `str.replace` calls of CPython are equivalent to this
character-wise map because `&` is replaced first and no later replacement
string contains a character that is replaced afterwards. -/
def escChar (c : Char) : Str :=
  if c = '&' then "&amp;".data
  else if c = '<' then "&lt;".data
  else if c = '>' then "&gt;".data
  else if c = '"' then "&quot;".data
  else if c = Char.ofNat 39 then "&#x27;".data
  else [c]

/-- `html.escape` on a whole string. -/
def htmlEscapeL (s : Str) : Str := (s.map escChar).flatten

/-- Fuel-driven worker for `replaceAllL` (the fuel is an upper bound on
the list length, so it never runs out). -/
def replAux (pat rep : Str) : Nat → Str → Str
  | _, [] => []
  | 0, l => l
  | n + 1, c :: rest =>
    if pat ≠ [] ∧ leadsWith pat (c :: rest) = true then
      rep ++ replAux pat rep n (rest.drop (pat.length - 1))
    else c :: replAux pat rep n rest

/-- Python `str.replace(pat, rep)` (all non-overlapping occurrences, left
to right); used for `j.replace('[ta]','')` in the HTML header. -/
def replaceAllL (pat rep : Str) (l : Str) : Str :=
  replAux pat rep l.length l

/-- One `<li>` row of `build_html`.  Note the source escapes the DOI used
as link text but interpolates the raw DOI into the `href` attribute, and
interpolates `it["url"]` and the PMID raw. -/
def htmlRow (metaMap : Option (List (Str × MetaEntry))) (baseUrl : Str)
    (it : SummaryItem) : Str :=
  let title := htmlEscapeL it.title
  let j := htmlEscapeL it.journal
  let date := htmlEscapeL it.date
  let doiLink :=
    if it.doi ≠ [] then
      " | DOI: <a ".data ++ ("href=\"https://doi.org/".data ++ it.doi ++ "\"".data)
        ++ ">".data ++ htmlEscapeL it.doi ++ "</a>".data
    else []
  let snippetHtml :=
    if INCLUDE_CONCLUSION_SNIPPET then
      match metaMap with
      | none => []
      | some mm =>
        match buildSnippet (lookupMeta mm it.pmid) with
        | (some lab, some sn) =>
          if sn ≠ [] then
            "<div><strong>".data ++ htmlEscapeL lab ++ ":</strong> ".data
              ++ htmlEscapeL sn ++ "</div>".data
          else []
        | _ => []
    else []
  let fullAbsLink :=
    if baseUrl ≠ [] then
      " <a href=\"".data ++ baseUrl ++ "/abstracts.html#".data ++ it.pmid
        ++ "\">Full abstract</a>".data
    else []
  "<li><a href=\"".data ++ it.url ++ "\">".data ++ title ++ "</a> — <em>".data
    ++ j ++ "</em> (".data ++ date ++ ")".data ++ doiLink ++ fullAbsLink
    ++ snippetHtml ++ "</li>".data

/-- `build_html` from `bot.py`; `baseUrl` models `ABSTRACTS_BASE_URL`
(empty = unset). -/
def buildHtml (items : List SummaryItem) (mindate maxdate : Str)
    (metaMap : Option (List (Str × MetaEntry))) (baseUrl : Str) : Str :=
  if items = [] then
    "<p>No new items between ".data ++ mindate ++ " and ".data ++ maxdate
      ++ ".</p>".data
  else
    "\n    <h2>Pain Literature Weekly</h2>\n    <p>Coverage (EDAT): ".data
      ++ mindate ++ " to ".data ++ maxdate ++ "; journals: ".data
      ++ joinSepL ", ".data (JOURNALS.map (replaceAllL "[ta]".data []))
      ++ "</p>\n    <ol>\n    ".data
      ++ (items.map (htmlRow metaMap baseUrl)).flatten
      ++ "\n    </ol>\n    ".data

/-- One line of `build_text` (with the snippet continuation line when
present). -/
def textRow (metaMap : Option (List (Str × MetaEntry))) (baseUrl : Str)
    (it : SummaryItem) : Str :=
  let doiPart :=
    if it.doi ≠ [] then " | DOI: https://doi.org/".data ++ it.doi else []
  let fullAbs :=
    if baseUrl ≠ [] then
      " | Full abstract: ".data ++ baseUrl ++ "/abstracts.html#".data ++ it.pmid
    else []
  let base := "- ".data ++ it.title ++ " — ".data ++ it.journal ++ " (".data
    ++ it.date ++ ") ".data ++ it.url ++ doiPart ++ fullAbs
  if INCLUDE_CONCLUSION_SNIPPET then
    match metaMap with
    | none => base
    | some mm =>
      match buildSnippet (lookupMeta mm it.pmid) with
      | (some lab, some sn) =>
        if sn ≠ [] then base ++ "\n  ".data ++ lab ++ ": ".data ++ sn else base
      | _ => base
  else base

/-- `build_text` from `bot.py`. -/
def buildText (items : List SummaryItem) (mindate maxdate : Str)
    (metaMap : Option (List (Str × MetaEntry))) (baseUrl : Str) : Str :=
  if items = [] then
    "No new items between ".data ++ mindate ++ " and ".data ++ maxdate ++ ".".data
  else
    joinSepL "\n".data
      (["Pain Literature Weekly".data,
        "Coverage (EDAT): ".data ++ mindate ++ " to ".data ++ maxdate]
        ++ items.map (textRow metaMap baseUrl))

/-- One `<section>` row of `build_abstracts_page`.  Here the DOI in the
`href` IS escaped (unlike `build_html`), while the PMID is interpolated
raw into the `id` attribute and the PubMed `href`. -/
def pageRow (metaMap : List (Str × MetaEntry)) (it : SummaryItem) : Str :=
  let title := htmlEscapeL it.title
  let j := htmlEscapeL it.journal
  let date := htmlEscapeL it.date
  let doiHtml :=
    if it.doi ≠ [] then
      "<div>DOI: <a ".data
        ++ ("href=\"https://doi.org/".data ++ htmlEscapeL it.doi ++ "\"".data)
        ++ ">".data ++ htmlEscapeL it.doi ++ "</a></div>".data
    else []
  let meAbs :=
    match lookupMeta metaMap it.pmid with
    | some me => me.abstract
    | none => none
  let abstract := htmlEscapeL
    (match meAbs with
     | some a => if a ≠ [] then a else "(No abstract available)".data
     | none => "(No abstract available)".data)
  "\n        <section id=\"".data ++ it.pmid
    ++ "\" style=\"margin-bottom:2rem;\">\n          <h3>".data ++ title
    ++ "</h3>\n          <div><em>".data ++ j ++ "</em> (".data ++ date
    ++ ") | PMID: <a href=\"https://pubmed.ncbi.nlm.nih.gov/".data ++ it.pmid
    ++ "/\">".data ++ it.pmid ++ "</a></div>\n          ".data ++ doiHtml
    ++ "\n          <h4>Abstract</h4>\n          <p>".data ++ abstract
    ++ "</p>\n          <div><a href=\"#top\">Back to top</a></div>\n        </section>\n        ".data

/-- `build_abstracts_page` from `bot.py`, modelled as returning the page
content (writing it to `out_path` is file I/O outside the model). -/
def buildAbstractsPage (items : List SummaryItem)
    (metaMap : List (Str × MetaEntry)) (mindate maxdate : Str) : Str :=
  let rows := items.map (pageRow metaMap)
  "<!doctype html>\n<html lang=\"en\"><head>\n<meta charset=\"utf-8\" />\n<title>Pain Literature Abstracts — ".data
    ++ mindate ++ " to ".data ++ maxdate
    ++ "</title>\n<meta name=\"viewport\" content=\"width=device-width, initial-scale=1\" />\n</head><body>\n<a id=\"top\"></a>\n<h1>Pain Literature Abstracts</h1>\n<p>Coverage (EDAT): ".data
    ++ mindate ++ " to ".data ++ maxdate ++ "</p>\n".data
    ++ (if rows ≠ [] then joinSepL " ".data rows
        else "<p>No abstracts this week.</p>".data)
    ++ "\n</body></html>".data

/-! ### Concrete fixtures used by the example parts of the claims -/

/-- A record whose DOI needs HTML escaping (it contains a double quote). -/
def itQ : SummaryItem :=
  ⟨"1".data, "T".data, "J".data, "2024/03/10".data, "10.1/a\"b".data,
    "u".data⟩

/-- A record with an ordinary DOI, for instantiating the rendering claim. -/
def itW : SummaryItem :=
  ⟨"123".data, "T".data, "J".data, "2024/03/10".data, "10.1/x".data,
    "u".data⟩

/-- First-seen record of a case-differing DOI pair. -/
def itDupA : SummaryItem :=
  ⟨"11".data, "A".data, "J".data, "2024/03/01".data, "10.1/X".data,
    "u1".data⟩

/-- Second record whose DOI differs from `itDupA` only in letter case. -/
def itDupB : SummaryItem :=
  ⟨"12".data, "B".data, "J".data, "2024/03/02".data, "10.1/x".data,
    "u2".data⟩

/-- Record dated 2024-03-01 (the ranking example of the spec). -/
def it01 : SummaryItem :=
  ⟨"21".data, "A".data, "J".data, "2024/03/01".data, [], "u1".data⟩

/-- Record dated 2024-03-10 (the ranking example of the spec). -/
def it10 : SummaryItem :=
  ⟨"22".data, "B".data, "J".data, "2024/03/10".data, [], "u2".data⟩

/-- Record with an unparsable date (the ranking example of the spec). -/
def itU : SummaryItem :=
  ⟨"23".data, "C".data, "J".data, "garbage".data, [], "u3".data⟩

/-- Record with an unparsable date, listed before a parsable one. -/
def itU2 : SummaryItem :=
  ⟨"31".data, "U".data, "J".data, "garbage".data, [], "u4".data⟩

/-- Record dated 0001/01/01, the earliest date `strptime` accepts. -/
def itP1 : SummaryItem :=
  ⟨"32".data, "P".data, "J".data, "0001/01/01".data, [], "u5".data⟩

/-- The abstract section `Conclusions: X Y Z.` of the spec's snippet
example (`Label="CONCLUSIONS"`, text `X Y Z.`). -/
def secConcl : AbsSection := ⟨some "CONCLUSIONS".data, none, "X Y Z.".data⟩

/-- A 100-word text, for the trimming example of the spec. -/
def hundredWords : Str := joinSepL " ".data (List.replicate 100 "word".data)

/-!
## Well-formedness of the query expression (for the QueryBuilder claims)

A query string is analysed through its whitespace-separated words: an
"empty parenthesized group" is the substring `()`, and a "boolean operator
with a missing operand" shows up as an `AND`/`OR` word at the start or the
end of the expression or as two adjacent operator words.
-/

/-- Is a word one of the boolean operators rendered by `pubmed_query`? -/
def isOpW (w : Str) : Bool := decide (w = "AND".data ∨ w = "OR".data)

/-- First word (the empty word, which is never an operator, as default). -/
def headW : List Str → Str
  | [] => []
  | w :: _ => w

/-- Last word (the empty word as default). -/
def lastW : List Str → Str
  | [] => []
  | [w] => w
  | _ :: w2 :: t => lastW (w2 :: t)

/-- No two adjacent operator words. -/
def noAdjOps : List Str → Bool
  | [] => true
  | [_] => true
  | a :: b :: t => !(isOpW a && isOpW b) && noAdjOps (b :: t)

/-- The output never contains an empty parenthesized group. -/
def noEmptyGroupB (s : Str) : Bool := !occursIn "()".data s

/-- The output never renders a boolean operator with a missing operand:
no leading operator word, no trailing operator word, no two adjacent
operator words. -/
def noDanglingB (s : Str) : Bool :=
  !isOpW (headW (wordsSplit s)) && !isOpW (lastW (wordsSplit s))
    && noAdjOps (wordsSplit s)

/-- Conjunction of the two defect-freedom conditions of the claim. -/
def defectFreeQ (s : Str) : Bool := noEmptyGroupB s && noDanglingB s

/-- A well-formed query token: non-empty, no leading or trailing
whitespace, and none of its words is an operator word or contains a
parenthesis (all the configured journal tags and keywords satisfy this). -/
def wfToken (t : Str) : Bool :=
  (match t with | [] => false | c :: _ => !isPySpace c)
    && !isPySpace (lastD ' ' t)
    && (wordsSplit t).all
      (fun w => !isOpW w && decide ('(' ∉ w) && decide (')' ∉ w))

/-! ### Words of an OR-joined, parenthesized group -/

/-- The word lists of the joined tokens, interleaved with `OR` words. -/
def joinBlocks : List (List Str) → List Str
  | [] => []
  | [b] => b
  | b :: b2 :: bs => b ++ ("OR".data :: joinBlocks (b2 :: bs))

/-- Attach `(` to the first word and `)` to the last word. -/
def wrapParens (W : List Str) : List Str :=
  match modLast (· ++ [')']) W with
  | [] => []
  | w :: rest => ('(' :: w) :: rest

/-- Well-formedness bundle for a word list: non-empty, no operator word at
either end, no two adjacent operator words, no word containing `()`. -/
def wordsOK (W : List Str) : Prop :=
  W ≠ [] ∧ isOpW (headW W) = false ∧ isOpW (lastW W) = false
    ∧ noAdjOps W = true ∧ ∀ w ∈ W, occursIn "()".data w = false

/-- The descending-sorted predicate: every earlier item's key is not
smaller than every later item's key. -/
def sortedDesc (l : List SummaryItem) : Prop :=
  List.Pairwise (fun a b => dateLt (sortKey a) (sortKey b) = false) l

/-- Which text the snippet of `build_snippet` is extracted from: the
conclusion when its stripped form is non-empty, else the abstract. -/
def snippetSource (me : MetaEntry) : Str :=
  if pyStripL (me.conclusion.getD []) ≠ [] then me.conclusion.getD []
  else me.abstract.getD []

/-!
## Theorems
-/

/-! ### Basic lemmas about `leadsWith` / `occursIn` -/

theorem leadsWith_nil (l : Str) : leadsWith [] l = true := by
  cases l <;> rfl

theorem leadsWith_self_append (n s : Str) : leadsWith n (n ++ s) = true := by
  induction n with
  | nil => simp [leadsWith_nil]
  | cons c t ih => simp [leadsWith, ih]

theorem occursIn_cons (n : Str) (c : Char) (t : Str) (h : occursIn n t = true) :
    occursIn n (c :: t) = true := by
  simp [occursIn, h]

theorem occursIn_of_leadsWith {n l : Str} (h : leadsWith n l = true) :
    occursIn n l = true := by
  cases l with
  | nil =>
    cases n with
    | nil => rfl
    | cons a as => simp [leadsWith] at h
  | cons c t => simp [occursIn, h]

theorem occursIn_append_right (n s t : Str) (h : occursIn n t = true) :
    occursIn n (s ++ t) = true := by
  induction s with
  | nil => simpa using h
  | cons c u ih => exact occursIn_cons n c (u ++ t) ih

theorem occursIn_self_append (n s : Str) : occursIn n (n ++ s) = true :=
  occursIn_of_leadsWith (leadsWith_self_append n s)

theorem occursIn_intro (n a b h : Str) (e : h = a ++ (n ++ b)) :
    occursIn n h = true := by
  subst e; exact occursIn_append_right n a (n ++ b) (occursIn_self_append n b)

theorem leadsWith_subset {n l : Str} (h : leadsWith n l = true) :
    ∀ c ∈ n, c ∈ l := by
  induction n generalizing l with
  | nil => intro c hc; cases hc
  | cons a as ih =>
    cases l with
    | nil => simp [leadsWith] at h
    | cons b bs =>
      simp only [leadsWith, Bool.and_eq_true, decide_eq_true_eq] at h
      intro c hc
      rcases List.mem_cons.mp hc with h1 | h2
      · exact List.mem_cons.mpr (Or.inl (h1.trans h.1))
      · exact List.mem_cons.mpr (Or.inr (ih h.2 c h2))

theorem occursIn_subset {n l : Str} (h : occursIn n l = true) :
    ∀ c ∈ n, c ∈ l := by
  induction l with
  | nil =>
    intro c hc
    cases n with
    | nil => cases hc
    | cons a as => simp [occursIn, List.isEmpty] at h
  | cons b bs ih =>
    simp only [occursIn, Bool.or_eq_true] at h
    rcases h with h | h
    · exact leadsWith_subset h
    · intro c hc; exact List.mem_cons.mpr (Or.inr (ih h c hc))

theorem occursIn_not_of_not_mem {n l : Str} {c : Char} (hc : c ∈ n)
    (h : c ∉ l) : occursIn n l = false := by
  cases e : occursIn n l with
  | false => rfl
  | true => exact absurd (occursIn_subset e c hc) h

/-! ### takeWhile / dropWhile / lastD helpers -/

theorem twAll (p : Char → Bool) (l : Str) : (l.takeWhile p).all p = true := by
  induction l with
  | nil => rfl
  | cons c t ih =>
    by_cases h : p c = true
    · simp [List.takeWhile_cons, h, ih]
    · simp [List.takeWhile_cons, h]

theorem twAllId {p : Char → Bool} {l : Str} (h : l.all p = true) :
    l.takeWhile p = l := by
  induction l with
  | nil => rfl
  | cons c t ih =>
    simp only [List.all_cons, Bool.and_eq_true] at h
    simp [List.takeWhile_cons, h.1, ih h.2]

theorem dwAllNil {p : Char → Bool} {l : Str} (h : l.all p = true) :
    l.dropWhile p = [] := by
  induction l with
  | nil => rfl
  | cons c t ih =>
    simp only [List.all_cons, Bool.and_eq_true] at h
    simp [List.dropWhile_cons, h.1, ih h.2]

theorem twAppendAll {p : Char → Bool} {a : Str} (b : Str) (h : a.all p = true) :
    (a ++ b).takeWhile p = a ++ b.takeWhile p := by
  induction a with
  | nil => simp
  | cons c t ih =>
    simp only [List.all_cons, Bool.and_eq_true] at h
    simp [List.takeWhile_cons, h.1, ih h.2]

theorem dwAppendAll {p : Char → Bool} {a : Str} (b : Str) (h : a.all p = true) :
    (a ++ b).dropWhile p = b.dropWhile p := by
  induction a with
  | nil => simp
  | cons c t ih =>
    simp only [List.all_cons, Bool.and_eq_true] at h
    simp [List.dropWhile_cons, h.1, ih h.2]

theorem twAppendNot {p : Char → Bool} {a : Str} (b : Str) (h : a.all p = false) :
    (a ++ b).takeWhile p = a.takeWhile p := by
  induction a with
  | nil => simp at h
  | cons c t ih =>
    by_cases hc : p c = true
    · simp only [List.all_cons, hc, Bool.true_and] at h
      simp [List.takeWhile_cons, hc, ih h]
    · simp only [Bool.not_eq_true] at hc
      simp [List.takeWhile_cons, hc]

theorem dwAppendNot {p : Char → Bool} {a : Str} (b : Str) (h : a.all p = false) :
    (a ++ b).dropWhile p = a.dropWhile p ++ b := by
  induction a with
  | nil => simp at h
  | cons c t ih =>
    by_cases hc : p c = true
    · simp only [List.all_cons, hc, Bool.true_and] at h
      simp [List.dropWhile_cons, hc, ih h]
    · simp only [Bool.not_eq_true] at hc
      simp [List.dropWhile_cons, hc]

theorem lastD_cons (d c : Char) {l : Str} (h : l ≠ []) :
    lastD d (c :: l) = lastD d l := by
  cases l with
  | nil => exact absurd rfl h
  | cons x xs => simp [lastD]

theorem lastD_append (d : Char) (a : Str) {b : Str} (h : b ≠ []) :
    lastD d (a ++ b) = lastD d b := by
  induction a with
  | nil => rfl
  | cons c t ih =>
    have hne : t ++ b ≠ [] := by
      intro he; exact h (List.append_eq_nil.mp he).2
    rw [List.cons_append, lastD_cons d c hne, ih]

theorem lastD_concat (d c : Char) (a : Str) : lastD d (a ++ [c]) = c := by
  rw [lastD_append d a (by simp)]; simp [lastD]

/-! ### wordsSplit equations and induction principle -/

theorem ws_nil : wordsSplit [] = [] := rfl

theorem ws_cons_sp {c : Char} {l : Str} (hc : isPySpace c = true) :
    wordsSplit (c :: l) = wordsSplit l := by
  simp [wordsSplit, wordsAux, hc]

theorem wordsAux_acc :
    ∀ (l cur : Str) (c : Char), isPySpace c = false →
    wordsAux (c :: cur) l
      = ((c :: cur).reverse ++ l.takeWhile (fun x => !isPySpace x))
        :: wordsSplit (l.dropWhile (fun x => !isPySpace x)) := by
  intro l
  induction l with
  | nil =>
    intro cur c hc
    simp [wordsAux, wordsSplit]
  | cons d t ih =>
    intro cur c hc
    by_cases hd : isPySpace d = true
    · have h1 : wordsAux (c :: cur) (d :: t)
          = (c :: cur).reverse :: wordsAux [] t := by
        simp [wordsAux, hd]
      have h2 : (d :: t).takeWhile (fun x => !isPySpace x) = [] := by
        simp [List.takeWhile_cons, hd]
      have h3 : (d :: t).dropWhile (fun x => !isPySpace x) = d :: t := by
        simp [List.dropWhile_cons, hd]
      rw [h1, h2, h3, List.append_nil, ws_cons_sp hd]
      rfl
    · simp only [Bool.not_eq_true] at hd
      have h1 : wordsAux (c :: cur) (d :: t) = wordsAux (d :: c :: cur) t := by
        simp [wordsAux, hd]
      have h2 : (d :: t).takeWhile (fun x => !isPySpace x)
          = d :: t.takeWhile (fun x => !isPySpace x) := by
        simp [List.takeWhile_cons, hd]
      have h3 : (d :: t).dropWhile (fun x => !isPySpace x)
          = t.dropWhile (fun x => !isPySpace x) := by
        simp [List.dropWhile_cons, hd]
      rw [h1, ih (c :: cur) d hd, h2, h3]
      simp [List.append_assoc]

theorem ws_cons_ns {c : Char} {l : Str} (hc : isPySpace c = false) :
    wordsSplit (c :: l)
      = (c :: l.takeWhile (fun x => !isPySpace x))
        :: wordsSplit (l.dropWhile (fun x => !isPySpace x)) := by
  have h1 : wordsSplit (c :: l) = wordsAux [c] l := by
    simp [wordsSplit, wordsAux, hc]
  rw [h1, wordsAux_acc l [] c hc]
  simp

theorem wsRec (motive : Str → Prop) (h1 : motive [])
    (h2 : ∀ c l, isPySpace c = true → motive l → motive (c :: l))
    (h3 : ∀ c l, isPySpace c = false →
      motive (l.dropWhile (fun x => !isPySpace x)) → motive (c :: l)) :
    ∀ l, motive l := by
  have key : ∀ n (l : Str), l.length ≤ n → motive l := by
    intro n
    induction n with
    | zero =>
      intro l hl
      cases l with
      | nil => exact h1
      | cons c t => simp at hl
    | succ n ih =>
      intro l hl
      cases l with
      | nil => exact h1
      | cons c t =>
        simp only [List.length_cons] at hl
        by_cases hc : isPySpace c = true
        · exact h2 c t hc (ih t (by omega))
        · refine h3 c t (by simpa using hc) (ih _ ?_)
          have h4 : (t.dropWhile (fun x => !isPySpace x)).length ≤ t.length :=
            (List.dropWhile_sublist _).length_le
          omega
  intro l
  exact key l.length l le_rfl

/-! ### wordsSplit lemmas -/

theorem ws_ne_nil {l : Str} (h : l ≠ []) (h2 : isPySpace (lastD ' ' l) = false) :
    wordsSplit l ≠ [] := by
  induction l with
  | nil => exact absurd rfl h
  | cons c t ih =>
    by_cases hc : isPySpace c = true
    · have ht : t ≠ [] := by
        intro he; subst he; simp only [lastD] at h2; rw [h2] at hc; simp at hc
      rw [lastD_cons ' ' c ht] at h2
      rw [ws_cons_sp hc]
      exact ih ht h2
    · simp only [Bool.not_eq_true] at hc
      rw [ws_cons_ns hc]
      simp

theorem ws_all_space {l : Str} (h : l.all isPySpace = true) :
    wordsSplit l = [] := by
  induction l with
  | nil => rfl
  | cons c t ih =>
    simp only [List.all_cons, Bool.and_eq_true] at h
    rw [ws_cons_sp h.1]
    exact ih h.2

theorem ws_dropWhile_sp (l : Str) :
    wordsSplit (l.dropWhile isPySpace) = wordsSplit l := by
  induction l with
  | nil => rfl
  | cons c t ih =>
    by_cases hc : isPySpace c = true
    · have h1 : (c :: t).dropWhile isPySpace = t.dropWhile isPySpace := by
        simp [List.dropWhile_cons, hc]
      rw [h1, ih, ws_cons_sp hc]
    · simp only [Bool.not_eq_true] at hc
      have h1 : (c :: t).dropWhile isPySpace = c :: t := by
        simp [List.dropWhile_cons, hc]
      rw [h1]

theorem ws_append_space {c : Char} (hc : isPySpace c = true) (a b : Str) :
    wordsSplit (a ++ c :: b) = wordsSplit a ++ wordsSplit b := by
  induction a using wsRec with
  | h1 => simp [ws_nil, ws_cons_sp hc]
  | h2 d l hd ih =>
    rw [List.cons_append, ws_cons_sp hd, ih, ws_cons_sp hd]
  | h3 d l hd ih =>
    cases hall : l.all (fun x => !isPySpace x) with
    | true =>
      rw [List.cons_append, ws_cons_ns (l := l ++ c :: b) hd,
        ws_cons_ns (l := l) hd]
      rw [twAppendAll _ hall, dwAppendAll _ hall]
      have h5 : (c :: b).takeWhile (fun x => !isPySpace x) = [] := by
        simp [List.takeWhile_cons, hc]
      have h6 : (c :: b).dropWhile (fun x => !isPySpace x) = c :: b := by
        simp [List.dropWhile_cons, hc]
      rw [h5, h6, List.append_nil, twAllId hall, dwAllNil hall, ws_nil,
        ws_cons_sp hc]
      simp
    | false =>
      rw [List.cons_append, ws_cons_ns (l := l ++ c :: b) hd,
        ws_cons_ns (l := l) hd]
      rw [twAppendNot _ hall, dwAppendNot _ hall, ih]
      simp

theorem ws_append_spaces {b : Str} (a : Str) (h : b.all isPySpace = true) :
    wordsSplit (a ++ b) = wordsSplit a := by
  induction b generalizing a with
  | nil => simp
  | cons c t ih =>
    simp only [List.all_cons, Bool.and_eq_true] at h
    rw [ws_append_space h.1 a t, ws_all_space h.2, List.append_nil]

theorem ws_strip (l : Str) : wordsSplit (pyStripL l) = wordsSplit l := by
  unfold pyStripL
  set m := l.dropWhile isPySpace with hm
  have hsplit : m = (m.reverse.dropWhile isPySpace).reverse
      ++ (m.reverse.takeWhile isPySpace).reverse := by
    have := List.takeWhile_append_dropWhile (p := isPySpace) (l := m.reverse)
    calc m = m.reverse.reverse := (List.reverse_reverse m).symm
    _ = (m.reverse.takeWhile isPySpace ++ m.reverse.dropWhile isPySpace).reverse := by
        rw [this]
    _ = _ := by rw [List.reverse_append]
  have hall : ((m.reverse.takeWhile isPySpace).reverse).all isPySpace = true := by
    rw [List.all_reverse]; exact twAll isPySpace m.reverse
  calc wordsSplit ((m.reverse.dropWhile isPySpace).reverse)
      = wordsSplit ((m.reverse.dropWhile isPySpace).reverse
        ++ (m.reverse.takeWhile isPySpace).reverse) :=
        (ws_append_spaces _ hall).symm
    _ = wordsSplit m := by rw [← hsplit]
    _ = wordsSplit l := by rw [hm, ws_dropWhile_sp]

theorem ws_words {l : Str} :
    ∀ w ∈ wordsSplit l, w ≠ [] ∧ w.all (fun x => !isPySpace x) = true := by
  induction l using wsRec with
  | h1 => intro w hw; simp [ws_nil] at hw
  | h2 c t hc ih =>
    intro w hw
    rw [ws_cons_sp hc] at hw
    exact ih w hw
  | h3 c t hc ih =>
    intro w hw
    rw [ws_cons_ns hc] at hw
    rcases List.mem_cons.mp hw with h1 | h2
    · subst h1
      refine ⟨by simp, ?_⟩
      simp only [List.all_cons, Bool.and_eq_true]
      exact ⟨by simp [hc], twAll _ t⟩
    · exact ih w h2

theorem ws_single {w : Str} (h1 : w ≠ [])
    (h2 : w.all (fun x => !isPySpace x) = true) : wordsSplit w = [w] := by
  cases w with
  | nil => exact absurd rfl h1
  | cons c t =>
    simp only [List.all_cons, Bool.and_eq_true, Bool.not_eq_true'] at h2
    rw [ws_cons_ns h2.1, twAllId h2.2, dwAllNil h2.2, ws_nil]

theorem ws_glue {c : Char} {l : Str} (hc : isPySpace c = false)
    (hl : headSp l = false) :
    wordsSplit (c :: l) =
      (match wordsSplit l with
       | [] => [[c]]
       | w :: ws => (c :: w) :: ws) := by
  cases l with
  | nil =>
    rw [ws_nil, ws_cons_ns hc]
    simp [ws_nil]
  | cons d t =>
    have hd : isPySpace d = false := by simpa [headSp] using hl
    rw [ws_cons_ns (l := d :: t) hc, ws_cons_ns (l := t) hd]
    simp [List.takeWhile_cons, List.dropWhile_cons, hd]

theorem ws_cons_headSp {c : Char} {l : Str} (hc : isPySpace c = false)
    (hl : headSp l = true) : wordsSplit (c :: l) = [c] :: wordsSplit l := by
  cases l with
  | nil => simp [headSp] at hl
  | cons d t =>
    have hd : isPySpace d = true := by simpa [headSp] using hl
    rw [ws_cons_ns hc]
    simp [List.takeWhile_cons, List.dropWhile_cons, hd]

theorem ws_concat_nonspace {c : Char} (hc : isPySpace c = false) :
    ∀ {a : Str}, isPySpace (lastD ' ' a) = false →
    wordsSplit (a ++ [c]) = modLast (· ++ [c]) (wordsSplit a) := by
  intro a
  induction a using wsRec with
  | h1 =>
    intro h
    simp only [lastD] at h
    exact absurd h (by decide)
  | h2 d l hd ih =>
    intro h
    have hl : l ≠ [] := by
      intro he; subst he; simp only [lastD] at h; rw [h] at hd; simp at hd
    rw [lastD_cons ' ' d hl] at h
    rw [List.cons_append, ws_cons_sp hd, ws_cons_sp hd]
    exact ih h
  | h3 d l hd ih =>
    intro h
    cases hall : l.all (fun x => !isPySpace x) with
    | true =>
      rw [List.cons_append, ws_cons_ns (l := l ++ [c]) hd,
        ws_cons_ns (l := l) hd]
      rw [twAppendAll _ hall, dwAppendAll _ hall]
      have h5 : ([c] : Str).takeWhile (fun x => !isPySpace x) = [c] := by
        simp [List.takeWhile_cons, hc]
      have h6 : ([c] : Str).dropWhile (fun x => !isPySpace x) = [] := by
        simp [List.dropWhile_cons, hc]
      rw [h5, h6, twAllId hall, dwAllNil hall, ws_nil]
      simp [modLast]
    | false =>
      have hlne : l ≠ [] := by rintro rfl; simp at hall
      have hldw : l.dropWhile (fun x => !isPySpace x) ≠ [] := by
        intro he
        have hx : l.all (fun x => !isPySpace x) = true := by
          have h2 := List.takeWhile_append_dropWhile
            (p := fun x => !isPySpace x) (l := l)
          rw [he, List.append_nil] at h2
          rw [← h2]; exact twAll _ l
        rw [hx] at hall; cases hall
      have hlast : isPySpace (lastD ' ' (l.dropWhile (fun x => !isPySpace x)))
          = false := by
        have h2 := List.takeWhile_append_dropWhile
          (p := fun x => !isPySpace x) (l := l)
        have h3 : lastD ' ' l
            = lastD ' ' (l.dropWhile (fun x => !isPySpace x)) := by
          conv_lhs => rw [← h2]
          exact lastD_append ' ' _ hldw
        rw [lastD_cons ' ' d hlne] at h
        rw [← h3]; exact h
      have hwsne : wordsSplit (l.dropWhile (fun x => !isPySpace x)) ≠ [] :=
        ws_ne_nil hldw hlast
      rw [List.cons_append, ws_cons_ns (l := l ++ [c]) hd,
        ws_cons_ns (l := l) hd]
      rw [twAppendNot _ hall, dwAppendNot _ hall, ih hlast]
      cases hws : wordsSplit (l.dropWhile (fun x => !isPySpace x)) with
      | nil => exact absurd hws hwsne
      | cons w ws => simp [modLast]

theorem ws_join_space_words {L : List Str}
    (h : ∀ w ∈ L, w ≠ [] ∧ w.all (fun x => !isPySpace x) = true) :
    wordsSplit (joinSepL " ".data L) = L := by
  induction L with
  | nil => rfl
  | cons w ws ih =>
    cases ws with
    | nil =>
      have hw := h w (by simp)
      simpa [joinSepL] using ws_single hw.1 hw.2
    | cons w2 ws2 =>
      have hw := h w (by simp)
      have hjoin : joinSepL " ".data (w :: w2 :: ws2)
          = w ++ ' ' :: joinSepL " ".data (w2 :: ws2) := by
        have hdata : (" ".data : Str) = [' '] := rfl
        simp [joinSepL, hdata, List.append_assoc]
      rw [hjoin, ws_append_space (by decide) w _, ws_single hw.1 hw.2]
      rw [ih (fun x hx => h x (by simp [hx]))]
      simp

/-! ### sentSplit equations, lemmas and induction principle -/

theorem sentEnd_not_space {c : Char} (h : isSentEnd c = true) :
    isPySpace c = false := by
  simp only [isSentEnd, Bool.or_eq_true, decide_eq_true_eq] at h
  rcases h with (h | h) | h <;> subst h <;> decide

theorem sentGo_ne_nil : ∀ (l : Str) (sk : Bool) (cur : Str),
    sentGo sk cur l ≠ [] := by
  intro l
  induction l with
  | nil =>
    intro sk cur
    cases sk <;> simp [sentGo]
  | cons c t ih =>
    intro sk cur
    cases sk with
    | true =>
      by_cases hc : isPySpace c = true
      · simpa [sentGo, hc] using ih true []
      · simp only [Bool.not_eq_true] at hc
        simpa [sentGo, hc] using ih false [c]
    | false =>
      by_cases hcond : (isPySpace c && headPunct cur) = true
      · simp [sentGo, hcond]
      · simpa [sentGo, hcond] using ih false (c :: cur)

theorem sent_ne_nil (l : Str) : sentSplit l ≠ [] := sentGo_ne_nil l false []

theorem sentSkip_eq (l : Str) :
    sentGo true [] l = sentSplit (l.dropWhile isPySpace) := by
  induction l with
  | nil => rfl
  | cons c t ih =>
    by_cases hc : isPySpace c = true
    · have h1 : (c :: t).dropWhile isPySpace = t.dropWhile isPySpace := by
        simp [List.dropWhile_cons, hc]
      rw [h1, ← ih]
      simp [sentGo, hc]
    · simp only [Bool.not_eq_true] at hc
      have h1 : (c :: t).dropWhile isPySpace = c :: t := by
        simp [List.dropWhile_cons, hc]
      rw [h1]
      show sentGo true [] (c :: t) = sentGo false [] (c :: t)
      simp [sentGo, hc, headPunct]

theorem sentGo_acc :
    ∀ (l cur : Str) (c : Char),
    sentGo false (c :: cur) l
      = (match sentGo false [c] l with
         | [] => []
         | p :: ps => (cur.reverse ++ p) :: ps) := by
  intro l
  induction l with
  | nil =>
    intro cur c
    simp [sentGo, List.reverse_cons]
  | cons d t ih =>
    intro cur c
    have hhead : headPunct (c :: cur) = headPunct [c] := by simp [headPunct]
    by_cases hcond : (isPySpace d && headPunct [c]) = true
    · have h1 : sentGo false (c :: cur) (d :: t)
          = (c :: cur).reverse :: sentGo true [] t := by
        rw [show sentGo false (c :: cur) (d :: t)
            = if isPySpace d && headPunct (c :: cur) then
                (c :: cur).reverse :: sentGo true [] t
              else sentGo false (d :: c :: cur) t from rfl]
        rw [hhead, if_pos hcond]
      have h2 : sentGo false [c] (d :: t)
          = [c].reverse :: sentGo true [] t := by
        rw [show sentGo false [c] (d :: t)
            = if isPySpace d && headPunct [c] then
                [c].reverse :: sentGo true [] t
              else sentGo false (d :: [c]) t from rfl]
        rw [if_pos hcond]
      rw [h1, h2]
      simp [List.reverse_cons]
    · have h1 : sentGo false (c :: cur) (d :: t)
          = sentGo false (d :: c :: cur) t := by
        rw [show sentGo false (c :: cur) (d :: t)
            = if isPySpace d && headPunct (c :: cur) then
                (c :: cur).reverse :: sentGo true [] t
              else sentGo false (d :: c :: cur) t from rfl]
        rw [hhead, if_neg (by simpa using hcond)]
      have h2 : sentGo false [c] (d :: t) = sentGo false (d :: [c]) t := by
        rw [show sentGo false [c] (d :: t)
            = if isPySpace d && headPunct [c] then
                [c].reverse :: sentGo true [] t
              else sentGo false (d :: [c]) t from rfl]
        rw [if_neg (by simpa using hcond)]
      rw [h1, h2, ih (c :: cur) d, ih [c] d]
      cases hS : sentGo false [d] t with
      | nil => exact absurd hS (sentGo_ne_nil t false [d])
      | cons p ps => simp [List.reverse_cons, List.append_assoc]

theorem sent_cons (c : Char) (l : Str) :
    sentSplit (c :: l)
      = if isSentEnd c && headSp l then
          [c] :: sentSplit (l.dropWhile isPySpace)
        else
          match sentSplit l with
          | [] => [[c]]
          | p :: ps => (c :: p) :: ps := by
  have hstart : sentSplit (c :: l) = sentGo false [c] l := by
    show sentGo false [] (c :: l) = sentGo false [c] l
    rw [show sentGo false [] (c :: l)
        = if isPySpace c && headPunct [] then
            ([] : Str).reverse :: sentGo true [] l
          else sentGo false (c :: []) l from rfl]
    simp [headPunct]
  by_cases hcond : (isSentEnd c && headSp l) = true
  · rw [hstart, if_pos hcond]
    have hc : isSentEnd c = true := Bool.and_elim_left hcond
    have hl : headSp l = true := Bool.and_elim_right hcond
    cases l with
    | nil => simp [headSp] at hl
    | cons d t =>
      have hd : isPySpace d = true := by simpa [headSp] using hl
      have h1 : sentGo false [c] (d :: t)
          = [c].reverse :: sentGo true [] t := by
        rw [show sentGo false [c] (d :: t)
            = if isPySpace d && headPunct [c] then
                [c].reverse :: sentGo true [] t
              else sentGo false (d :: [c]) t from rfl]
        rw [if_pos (by simp [hd, headPunct, hc])]
      rw [h1, sentSkip_eq]
      have h2 : (d :: t).dropWhile isPySpace = t.dropWhile isPySpace := by
        simp [List.dropWhile_cons, hd]
      rw [h2]
      simp
  · rw [hstart, if_neg hcond]
    cases l with
    | nil =>
      show sentGo false [c] [] = _
      rw [show sentSplit ([] : Str) = [[]] from rfl]
      simp [sentGo]
    | cons d t =>
      have hcond2 : (isPySpace d && headPunct [c]) = false := by
        simp only [headPunct]
        by_cases h1 : isPySpace d = true
        · by_cases h2 : isSentEnd c = true
          · exfalso; apply hcond; simp [headSp, h1, h2]
          · simp only [Bool.not_eq_true] at h2
            simp [h2]
        · simp only [Bool.not_eq_true] at h1
          simp [h1]
      have h1 : sentGo false [c] (d :: t) = sentGo false (d :: [c]) t := by
        rw [show sentGo false [c] (d :: t)
            = if isPySpace d && headPunct [c] then
                [c].reverse :: sentGo true [] t
              else sentGo false (d :: [c]) t from rfl]
        rw [if_neg (by simp [hcond2])]
      have h2 : sentSplit (d :: t) = sentGo false [d] t := by
        show sentGo false [] (d :: t) = sentGo false [d] t
        rw [show sentGo false [] (d :: t)
            = if isPySpace d && headPunct [] then
                ([] : Str).reverse :: sentGo true [] t
              else sentGo false (d :: []) t from rfl]
        simp [headPunct]
      rw [h1, sentGo_acc t [c] d, h2]
      cases hS : sentGo false [d] t with
      | nil => exact absurd hS (sentGo_ne_nil t false [d])
      | cons p ps => simp

theorem sentRec (motive : Str → Prop) (h1 : motive [])
    (h2 : ∀ c l, (isSentEnd c && headSp l) = true →
      motive (l.dropWhile isPySpace) → motive (c :: l))
    (h3 : ∀ c l, (isSentEnd c && headSp l) = false → motive l → motive (c :: l)) :
    ∀ l, motive l := by
  have key : ∀ n (l : Str), l.length ≤ n → motive l := by
    intro n
    induction n with
    | zero =>
      intro l hl
      cases l with
      | nil => exact h1
      | cons c t => simp at hl
    | succ n ih =>
      intro l hl
      cases l with
      | nil => exact h1
      | cons c t =>
        simp only [List.length_cons] at hl
        by_cases hcond : (isSentEnd c && headSp t) = true
        · refine h2 c t hcond (ih _ ?_)
          have h4 : (t.dropWhile isPySpace).length ≤ t.length :=
            (List.dropWhile_sublist _).length_le
          omega
        · exact h3 c t (by simpa using hcond) (ih t (by omega))
  intro l
  exact key l.length l le_rfl

theorem sent_head_cons (c : Char) (l : Str) :
    ∃ q ps, sentSplit (c :: l) = (c :: q) :: ps := by
  rw [sent_cons]
  by_cases hcond : (isSentEnd c && headSp l) = true
  · rw [if_pos hcond]; exact ⟨[], _, rfl⟩
  · rw [if_neg hcond]
    cases hS : sentSplit l with
    | nil => exact ⟨[], [], by simp⟩
    | cons p ps => exact ⟨p, ps, by simp⟩

theorem ws_sent_join (l : Str) :
    ((sentSplit l).map wordsSplit).flatten = wordsSplit l := by
  induction l using sentRec with
  | h1 => rfl
  | h2 c l hcond ih =>
    have hc : isPySpace c = false :=
      sentEnd_not_space (Bool.and_elim_left hcond)
    have hl : headSp l = true := Bool.and_elim_right hcond
    have hstep : sentSplit (c :: l) = [c] :: sentSplit (l.dropWhile isPySpace) := by
      rw [sent_cons, if_pos hcond]
    rw [hstep]
    simp only [List.map_cons, List.flatten_cons, ih, ws_dropWhile_sp]
    rw [ws_cons_headSp hc hl]
    have h1 : wordsSplit [c] = [[c]] := by
      rw [ws_cons_ns hc]; simp [ws_nil]
    rw [h1]; simp
  | h3 c l hcond ih =>
    obtain ⟨p0, ps0, hS⟩ : ∃ p0 ps0, sentSplit l = p0 :: ps0 := by
      cases hS : sentSplit l with
      | nil => exact absurd hS (sent_ne_nil l)
      | cons p ps => exact ⟨p, ps, rfl⟩
    have hstep : sentSplit (c :: l) = (c :: p0) :: ps0 := by
      rw [sent_cons, if_neg (by simp [hcond]), hS]
    rw [hS] at ih
    simp only [List.map_cons, List.flatten_cons] at ih
    rw [hstep]
    simp only [List.map_cons, List.flatten_cons]
    by_cases hc : isPySpace c = true
    · rw [ws_cons_sp (l := p0) hc, ws_cons_sp (l := l) hc, ih]
    · simp only [Bool.not_eq_true] at hc
      cases l with
      | nil =>
        rw [show sentSplit ([] : Str) = [[]] from rfl] at hS
        obtain ⟨hp, hps⟩ := List.cons_eq_cons.mp hS
        rw [← hp, ← hps]
        simp [ws_nil]
      | cons d t =>
        obtain ⟨q, ps', hdq⟩ := sent_head_cons d t
        rw [hdq] at hS
        obtain ⟨hp, hps⟩ := List.cons_eq_cons.mp hS
        subst hp; subst hps
        by_cases hd : isPySpace d = true
        · have hheadl : headSp (d :: t) = true := by simp [headSp, hd]
          have hheadq : headSp (d :: q) = true := by simp [headSp, hd]
          rw [ws_cons_headSp hc hheadl, ws_cons_headSp hc hheadq, ← ih]
          simp
        · simp only [Bool.not_eq_true] at hd
          have hwsl : wordsSplit (d :: t) =
              (d :: t.takeWhile (fun x => !isPySpace x)) ::
                wordsSplit (t.dropWhile (fun x => !isPySpace x)) :=
            ws_cons_ns hd
          have hwsp : wordsSplit (d :: q) =
              (d :: q.takeWhile (fun x => !isPySpace x)) ::
                wordsSplit (q.dropWhile (fun x => !isPySpace x)) :=
            ws_cons_ns hd
          rw [hwsl, hwsp] at ih
          simp only [List.cons_append] at ih
          have heq1 : d :: q.takeWhile (fun x => !isPySpace x)
              = d :: t.takeWhile (fun x => !isPySpace x) :=
            (List.cons_eq_cons.mp ih).1
          have heq2 : wordsSplit (q.dropWhile (fun x => !isPySpace x))
              ++ (ps'.map wordsSplit).flatten
              = wordsSplit (t.dropWhile (fun x => !isPySpace x)) :=
            (List.cons_eq_cons.mp ih).2
          have hwc1 : wordsSplit (c :: d :: q) =
              (c :: d :: q.takeWhile (fun x => !isPySpace x)) ::
                wordsSplit (q.dropWhile (fun x => !isPySpace x)) := by
            rw [ws_cons_ns (l := d :: q) hc]
            simp [List.takeWhile_cons, List.dropWhile_cons, hd]
          have hwc2 : wordsSplit (c :: d :: t) =
              (c :: d :: t.takeWhile (fun x => !isPySpace x)) ::
                wordsSplit (t.dropWhile (fun x => !isPySpace x)) := by
            rw [ws_cons_ns (l := d :: t) hc]
            simp [List.takeWhile_cons, List.dropWhile_cons, hd]
          rw [hwc1, hwc2]
          simp only [List.cons_append]
          rw [← heq2]
          have heq3 : q.takeWhile (fun x => !isPySpace x)
              = t.takeWhile (fun x => !isPySpace x) :=
            (List.cons_eq_cons.mp heq1).2
          rw [heq3]

/-! ### Word-list surgery lemmas -/

theorem headW_append {A : List Str} (B : List Str) (h : A ≠ []) :
    headW (A ++ B) = headW A := by
  cases A with
  | nil => exact absurd rfl h
  | cons a t => rfl

theorem lastW_cons (a : Str) {t : List Str} (h : t ≠ []) :
    lastW (a :: t) = lastW t := by
  cases t with
  | nil => exact absurd rfl h
  | cons b u => simp [lastW]

theorem lastW_append (A : List Str) {B : List Str} (h : B ≠ []) :
    lastW (A ++ B) = lastW B := by
  induction A with
  | nil => rfl
  | cons a t ih =>
    have hne : t ++ B ≠ [] := by
      intro he; exact h (List.append_eq_nil.mp he).2
    rw [List.cons_append, lastW_cons a hne, ih]

theorem headW_mem {A : List Str} (h : A ≠ []) : headW A ∈ A := by
  cases A with
  | nil => exact absurd rfl h
  | cons a t => simp [headW]

theorem lastW_mem {A : List Str} (h : A ≠ []) : lastW A ∈ A := by
  induction A with
  | nil => exact absurd rfl h
  | cons a t ih =>
    cases t with
    | nil => simp [lastW]
    | cons b u =>
      rw [lastW_cons a (by simp)]
      exact List.mem_cons.mpr (Or.inr (ih (by simp)))

theorem noAdjOps_tail {a : Str} {t : List Str} (h : noAdjOps (a :: t) = true) :
    noAdjOps t = true := by
  cases t with
  | nil => rfl
  | cons b u =>
    simp only [noAdjOps, Bool.and_eq_true] at h
    exact h.2

theorem noAdjOps_cons {x : Str} {B : List Str}
    (h1 : isOpW x = false ∨ isOpW (headW B) = false)
    (h2 : noAdjOps B = true) : noAdjOps (x :: B) = true := by
  cases B with
  | nil => rfl
  | cons b u =>
    simp only [noAdjOps, Bool.and_eq_true]
    refine ⟨?_, h2⟩
    rcases h1 with h | h
    · simp [h]
    · simp only [headW] at h
      simp [h]

theorem noAdjOps_of_no_ops {A : List Str}
    (h : ∀ w ∈ A, isOpW w = false) : noAdjOps A = true := by
  induction A with
  | nil => rfl
  | cons a t ih =>
    refine noAdjOps_cons (Or.inl (h a (by simp))) (ih ?_)
    intro w hw; exact h w (List.mem_cons.mpr (Or.inr hw))

theorem noAdjOps_append {A B : List Str} (hA : noAdjOps A = true)
    (hB : noAdjOps B = true)
    (hb : isOpW (lastW A) = false ∨ isOpW (headW B) = false) :
    noAdjOps (A ++ B) = true := by
  induction A with
  | nil => simpa using hB
  | cons a t ih =>
    cases t with
    | nil =>
      refine noAdjOps_cons ?_ hB
      rcases hb with h | h
      · exact Or.inl (by simpa [lastW] using h)
      · exact Or.inr h
    | cons b u =>
      simp only [noAdjOps, Bool.and_eq_true] at hA
      rw [lastW_cons a (by simp)] at hb
      have htail : noAdjOps ((b :: u) ++ B) = true := ih hA.2 hb
      rw [List.cons_append]
      refine noAdjOps_cons ?_ htail
      rw [List.cons_append, headW]
      rcases (by simpa using hA.1 : isOpW a = false ∨ isOpW b = false) with h | h
      · exact Or.inl h
      · exact Or.inr h

theorem modLast_ne_nil (f : Str → Str) {l : List Str} (h : l ≠ []) :
    modLast f l ≠ [] := by
  cases l with
  | nil => exact absurd rfl h
  | cons a t => cases t <;> simp [modLast]

theorem modLast_mem (f : Str → Str) :
    ∀ {l : List Str}, ∀ w ∈ modLast f l, ∃ v ∈ l, w = v ∨ w = f v := by
  intro l
  induction l with
  | nil => intro w hw; simp [modLast] at hw
  | cons a t ih =>
    intro w hw
    cases t with
    | nil =>
      simp only [modLast, List.mem_singleton] at hw
      exact ⟨a, by simp, Or.inr hw⟩
    | cons b u =>
      simp only [modLast, List.mem_cons] at hw
      rcases hw with h | h
      · exact ⟨a, by simp, Or.inl h⟩
      · obtain ⟨v, hv, hvw⟩ := ih w h
        exact ⟨v, List.mem_cons.mpr (Or.inr hv), hvw⟩

theorem modLast_lastW (f : Str → Str) {l : List Str} (h : l ≠ []) :
    lastW (modLast f l) = f (lastW l) := by
  induction l with
  | nil => exact absurd rfl h
  | cons a t ih =>
    cases t with
    | nil => simp [modLast, lastW]
    | cons b u =>
      have h1 : modLast f (a :: b :: u) = a :: modLast f (b :: u) := by
        simp [modLast]
      rw [h1, lastW_cons a (modLast_ne_nil f (by simp)),
        lastW_cons a (by simp)]
      exact ih (by simp)

theorem noAdjOps_modLast (f : Str → Str) {l : List Str}
    (h : noAdjOps l = true) (hf : ∀ w, isOpW (f w) = false) :
    noAdjOps (modLast f l) = true := by
  induction l with
  | nil => rfl
  | cons a t ih =>
    cases t with
    | nil => rfl
    | cons b u =>
      have h1 : modLast f (a :: b :: u) = a :: modLast f (b :: u) := by
        simp [modLast]
      rw [h1]
      refine noAdjOps_cons ?_ (ih (noAdjOps_tail h))
      cases u with
      | nil =>
        simp only [modLast, headW]
        exact Or.inr (hf b)
      | cons c v =>
        have h2 : modLast f (b :: c :: v) = b :: modLast f (c :: v) := by
          simp [modLast]
        rw [h2, headW]
        simp only [noAdjOps, Bool.and_eq_true] at h
        rcases (by simpa using h.1 : isOpW a = false ∨ isOpW b = false) with hx | hx
        · exact Or.inl hx
        · exact Or.inr hx

/-! ### A whitespace-free substring occurs inside a single word -/

theorem leadsWith_takeWhile {n : Str}
    (hsp : n.all (fun x => !isPySpace x) = true) :
    ∀ {l : Str}, leadsWith n l = true →
    leadsWith n (l.takeWhile (fun x => !isPySpace x)) = true := by
  induction n with
  | nil => intro l _; exact leadsWith_nil _
  | cons a as ih =>
    intro l h
    cases l with
    | nil => simp [leadsWith] at h
    | cons b bs =>
      simp only [leadsWith, Bool.and_eq_true, decide_eq_true_eq] at h
      simp only [List.all_cons, Bool.and_eq_true] at hsp
      have hb : (!isPySpace b) = true := h.1 ▸ hsp.1
      rw [List.takeWhile_cons, if_pos hb]
      simp only [leadsWith, Bool.and_eq_true, decide_eq_true_eq]
      exact ⟨h.1, ih hsp.2 h.2⟩

theorem occursIn_word {n : Str} (hn : n ≠ [])
    (hsp : n.all (fun x => !isPySpace x) = true) :
    ∀ {l : Str}, occursIn n l = true →
    ∃ w ∈ wordsSplit l, occursIn n w = true := by
  intro l
  induction l with
  | nil =>
    intro h
    cases n with
    | nil => exact absurd rfl hn
    | cons a as => simp [occursIn, List.isEmpty] at h
  | cons c t ih =>
    intro h
    simp only [occursIn, Bool.or_eq_true] at h
    rcases h with h | h
    · -- the occurrence starts at the head
      obtain ⟨a, as, rfl⟩ : ∃ a as, n = a :: as := by
        cases n with
        | nil => exact absurd rfl hn
        | cons a as => exact ⟨a, as, rfl⟩
      have hac : a = c := by
        simp only [leadsWith, Bool.and_eq_true, decide_eq_true_eq] at h
        exact h.1
      have hc : isPySpace c = false := by
        simp only [List.all_cons, Bool.and_eq_true] at hsp
        rw [← hac]
        simpa using hsp.1
      refine ⟨c :: t.takeWhile (fun x => !isPySpace x), ?_, ?_⟩
      · rw [ws_cons_ns hc]; simp
      · apply occursIn_of_leadsWith
        have h2 : (c :: t).takeWhile (fun x => !isPySpace x)
            = c :: t.takeWhile (fun x => !isPySpace x) := by
          simp [List.takeWhile_cons, hc]
        rw [← h2]
        exact leadsWith_takeWhile hsp h
    · obtain ⟨w, hw, hocc⟩ := ih h
      by_cases hc : isPySpace c = true
      · exact ⟨w, by rw [ws_cons_sp hc]; exact hw, hocc⟩
      · simp only [Bool.not_eq_true] at hc
        cases t with
        | nil => simp [ws_nil] at hw
        | cons d t2 =>
          by_cases hd : isPySpace d = true
          · refine ⟨w, ?_, hocc⟩
            rw [ws_cons_headSp hc (by simp [headSp, hd])]
            exact List.mem_cons.mpr (Or.inr hw)
          · simp only [Bool.not_eq_true] at hd
            rw [ws_cons_ns hd] at hw
            rcases List.mem_cons.mp hw with h1 | h2
            · refine ⟨c :: w, ?_, occursIn_cons n c w hocc⟩
              rw [ws_cons_ns hc]
              have h3 : (d :: t2).takeWhile (fun x => !isPySpace x)
                  = d :: t2.takeWhile (fun x => !isPySpace x) := by
                simp [List.takeWhile_cons, hd]
              rw [h3, ← h1]
              simp
            · refine ⟨w, ?_, hocc⟩
              rw [ws_cons_ns hc]
              have h4 : (d :: t2).dropWhile (fun x => !isPySpace x)
                  = t2.dropWhile (fun x => !isPySpace x) := by
                simp [List.dropWhile_cons, hd]
              rw [h4]
              exact List.mem_cons.mpr (Or.inr h2)

theorem ws_joinOR :
    ∀ ts : List Str,
    wordsSplit (joinSepL " OR ".data ts) = joinBlocks (ts.map wordsSplit) := by
  intro ts
  induction ts with
  | nil => rfl
  | cons t ts2 ih =>
    cases ts2 with
    | nil => rfl
    | cons t2 ts3 =>
      have hjoin : joinSepL " OR ".data (t :: t2 :: ts3)
          = t ++ (' ' :: ("OR".data ++ (' ' :: joinSepL " OR ".data (t2 :: ts3)))) := by
        have hd : (" OR ".data : Str) = ' ' :: ('O' :: ('R' :: (' ' :: []))) := rfl
        simp [joinSepL, hd, List.append_assoc]
      rw [hjoin, ws_append_space (by decide) t _,
        ws_append_space (by decide) "OR".data _]
      have hOR : wordsSplit "OR".data = ["OR".data] := by decide
      rw [hOR, ih]
      simp [joinBlocks]

theorem joinBlocks_ne_nil {B : List (List Str)} (h : B ≠ [])
    (hb : ∀ b ∈ B, b ≠ []) : joinBlocks B ≠ [] := by
  cases B with
  | nil => exact absurd rfl h
  | cons b bs =>
    cases bs with
    | nil => exact hb b (by simp)
    | cons b2 bs2 =>
      simp only [joinBlocks]
      intro he
      exact hb b (by simp) (List.append_eq_nil.mp he).1

theorem joinBlocks_mem :
    ∀ {B : List (List Str)}, ∀ w ∈ joinBlocks B,
    (∃ b ∈ B, w ∈ b) ∨ w = "OR".data := by
  intro B
  induction B with
  | nil => intro w hw; simp [joinBlocks] at hw
  | cons b bs ih =>
    intro w hw
    cases bs with
    | nil =>
      simp only [joinBlocks] at hw
      exact Or.inl ⟨b, by simp, hw⟩
    | cons b2 bs2 =>
      simp only [joinBlocks, List.mem_append, List.mem_cons] at hw
      rcases hw with hw | hw | hw
      · exact Or.inl ⟨b, by simp, hw⟩
      · exact Or.inr hw
      · rcases ih w hw with ⟨b', hb', hwb'⟩ | hOR
        · exact Or.inl ⟨b', List.mem_cons.mpr (Or.inr hb'), hwb'⟩
        · exact Or.inr hOR

theorem joinBlocks_headW {b : List Str} (bs : List (List Str)) (h : b ≠ []) :
    headW (joinBlocks (b :: bs)) = headW b := by
  cases bs with
  | nil => rfl
  | cons b2 bs2 =>
    simp only [joinBlocks]
    exact headW_append _ h

theorem joinBlocks_lastW_mem :
    ∀ {B : List (List Str)}, B ≠ [] → (∀ b ∈ B, b ≠ []) →
    ∃ b ∈ B, lastW (joinBlocks B) ∈ b := by
  intro B
  induction B with
  | nil => intro h _; exact absurd rfl h
  | cons b bs ih =>
    intro _ hb
    cases bs with
    | nil =>
      exact ⟨b, by simp, lastW_mem (hb b (by simp))⟩
    | cons b2 bs2 =>
      have hJ : joinBlocks (b2 :: bs2) ≠ [] :=
        joinBlocks_ne_nil (by simp)
          (fun x hx => hb x (List.mem_cons.mpr (Or.inr hx)))
      have h1 : lastW (joinBlocks (b :: b2 :: bs2))
          = lastW (joinBlocks (b2 :: bs2)) := by
        simp only [joinBlocks]
        rw [lastW_append _ (by simp), lastW_cons _ hJ]
      rw [h1]
      obtain ⟨b', hb', hmem⟩ := ih (by simp)
        (fun x hx => hb x (List.mem_cons.mpr (Or.inr hx)))
      exact ⟨b', List.mem_cons.mpr (Or.inr hb'), hmem⟩

theorem joinBlocks_noAdjOps {B : List (List Str)}
    (hne : ∀ b ∈ B, b ≠ [])
    (hop : ∀ b ∈ B, ∀ w ∈ b, isOpW w = false) :
    noAdjOps (joinBlocks B) = true := by
  induction B with
  | nil => rfl
  | cons b bs ih =>
    cases bs with
    | nil =>
      exact noAdjOps_of_no_ops (fun w hw => hop b (by simp) w hw)
    | cons b2 bs2 =>
      have hJne : joinBlocks (b2 :: bs2) ≠ [] :=
        joinBlocks_ne_nil (by simp)
          (fun x hx => hne x (List.mem_cons.mpr (Or.inr hx)))
      have hJ : noAdjOps (joinBlocks (b2 :: bs2)) = true :=
        ih (fun x hx => hne x (List.mem_cons.mpr (Or.inr hx)))
          (fun x hx => hop x (List.mem_cons.mpr (Or.inr hx)))
      have hORJ : noAdjOps ("OR".data :: joinBlocks (b2 :: bs2)) = true := by
        refine noAdjOps_cons (Or.inr ?_) hJ
        have hhead : headW (joinBlocks (b2 :: bs2)) = headW b2 :=
          joinBlocks_headW bs2 (hne b2 (by simp))
        rw [hhead]
        exact hop b2 (by simp) (headW b2) (headW_mem (hne b2 (by simp)))
      show noAdjOps (b ++ ("OR".data :: joinBlocks (b2 :: bs2))) = true
      refine noAdjOps_append
        (noAdjOps_of_no_ops (fun w hw => hop b (by simp) w hw)) hORJ (Or.inl ?_)
      by_cases hbe : b = []
      · subst hbe; simp [lastW, isOpW]
      · exact hop b (by simp) (lastW b) (lastW_mem hbe)

/-! ### Operator words, parenthesis shapes -/

theorem isOpW_lparen (w : Str) : isOpW ('(' :: w) = false := by
  unfold isOpW
  apply decide_eq_false
  rintro (h | h)
  · exact absurd (List.cons_eq_cons.mp h).1 (by decide)
  · exact absurd (List.cons_eq_cons.mp h).1 (by decide)

theorem isOpW_rparen (w : Str) : isOpW (w ++ [')']) = false := by
  unfold isOpW
  apply decide_eq_false
  rintro (h | h)
  · have h2 := lastD_concat ' ' ')' w
    rw [h] at h2
    exact absurd h2 (by decide)
  · have h2 := lastD_concat ' ' ')' w
    rw [h] at h2
    exact absurd h2 (by decide)

theorem no_pp_of_not_mem {w : Str} (h : '(' ∉ w) :
    occursIn "()".data w = false :=
  occursIn_not_of_not_mem (by decide) h

theorem no_pp_lparen {w : Str} (h1 : '(' ∉ w) (h2 : w.headD 'x' ≠ ')') :
    occursIn "()".data ('(' :: w) = false := by
  have hlead : leadsWith "()".data ('(' :: w) = false := by
    cases w with
    | nil => rfl
    | cons c t =>
      have hc : c ≠ ')' := by simpa [List.headD] using h2
      simp [leadsWith, Ne.symm hc]
  simp [occursIn, hlead, no_pp_of_not_mem h1]

/-! ### Facts about well-formed tokens and OR-joins -/

theorem headSp_append {a : Str} (b : Str) (h : a ≠ []) :
    headSp (a ++ b) = headSp a := by
  cases a with
  | nil => exact absurd rfl h
  | cons c t => rfl

theorem joinSepL_ne_nil {sep : Str} :
    ∀ {ts : List Str}, ts ≠ [] → (∀ t ∈ ts, t ≠ []) →
    joinSepL sep ts ≠ [] := by
  intro ts hne h
  cases ts with
  | nil => exact absurd rfl hne
  | cons t ts2 =>
    cases ts2 with
    | nil => exact h t (by simp)
    | cons t2 ts3 =>
      show t ++ sep ++ joinSepL sep (t2 :: ts3) ≠ []
      intro he
      exact h t (by simp)
        (List.append_eq_nil.mp (List.append_eq_nil.mp he).1).1

theorem joinSepL_headSp_false {sep : Str} {ts : List Str} (hne : ts ≠ [])
    (h : ∀ t ∈ ts, t ≠ [] ∧ headSp t = false) :
    headSp (joinSepL sep ts) = false := by
  cases ts with
  | nil => exact absurd rfl hne
  | cons t ts2 =>
    cases ts2 with
    | nil => exact (h t (by simp)).2
    | cons t2 ts3 =>
      show headSp (t ++ sep ++ joinSepL sep (t2 :: ts3)) = false
      rw [List.append_assoc, headSp_append _ (h t (by simp)).1]
      exact (h t (by simp)).2

theorem joinSepL_lastD_nonspace {sep : Str} :
    ∀ {ts : List Str}, ts ≠ [] →
    (∀ t ∈ ts, t ≠ [] ∧ isPySpace (lastD ' ' t) = false) →
    isPySpace (lastD ' ' (joinSepL sep ts)) = false := by
  intro ts
  induction ts with
  | nil => intro hne _; exact absurd rfl hne
  | cons t ts2 ih =>
    intro _ h
    cases ts2 with
    | nil => exact (h t (by simp)).2
    | cons t2 ts3 =>
      have hJ : joinSepL sep (t2 :: ts3) ≠ [] :=
        joinSepL_ne_nil (by simp)
          (fun x hx => (h x (List.mem_cons.mpr (Or.inr hx))).1)
      show isPySpace (lastD ' ' (t ++ sep ++ joinSepL sep (t2 :: ts3))) = false
      rw [lastD_append ' ' (t ++ sep) hJ]
      exact ih (by simp) (fun x hx => h x (List.mem_cons.mpr (Or.inr hx)))

theorem wfToken_facts {t : Str} (h : wfToken t = true) :
    t ≠ [] ∧ headSp t = false ∧ isPySpace (lastD ' ' t) = false
    ∧ wordsSplit t ≠ []
    ∧ ∀ w ∈ wordsSplit t,
        w ≠ [] ∧ isOpW w = false ∧ '(' ∉ w ∧ ')' ∉ w := by
  unfold wfToken at h
  simp only [Bool.and_eq_true, List.all_eq_true] at h
  obtain ⟨⟨h1, h2⟩, h3⟩ := h
  cases t with
  | nil => simp at h1
  | cons c ts =>
    have hhead : isPySpace c = false := by simpa using h1
    have hlast : isPySpace (lastD ' ' (c :: ts)) = false := by simpa using h2
    refine ⟨by simp, by simp [headSp, hhead], hlast,
      ws_ne_nil (by simp) hlast, ?_⟩
    intro w hw
    have hww := ws_words w hw
    have h4 := h3 w hw
    simp only [Bool.and_eq_true, decide_eq_true_eq] at h4
    exact ⟨hww.1, by simpa using h4.1.1, h4.1.2, h4.2⟩

theorem wordsOK_and_append {A B : List Str} (hA : wordsOK A) (hB : wordsOK B) :
    wordsOK (A ++ "AND".data :: B) := by
  obtain ⟨hA1, hA2, hA3, hA4, hA5⟩ := hA
  obtain ⟨hB1, hB2, hB3, hB4, hB5⟩ := hB
  refine ⟨?_, ?_, ?_, ?_, ?_⟩
  · intro he; exact hA1 (List.append_eq_nil.mp he).1
  · rw [headW_append _ hA1]; exact hA2
  · rw [lastW_append A (by simp), lastW_cons _ hB1]; exact hB3
  · exact noAdjOps_append hA4 (noAdjOps_cons (Or.inr hB2) hB4) (Or.inl hA3)
  · intro w hw
    rcases List.mem_append.mp hw with h | h
    · exact hA5 w h
    · rcases List.mem_cons.mp h with h | h
      · subst h; decide
      · exact hB5 w h

theorem headD_mem {l : Str} (d : Char) (h : l ≠ []) : l.headD d ∈ l := by
  cases l with
  | nil => exact absurd rfl h
  | cons c t => simp [List.headD]

theorem group_wordsOK {ts : List Str} (hts : ts.all wfToken = true)
    (hne : ts ≠ []) :
    wordsOK (wordsSplit ('(' :: (joinSepL " OR ".data ts ++ [')']))) := by
  have hfacts : ∀ t ∈ ts, t ≠ [] ∧ headSp t = false
      ∧ isPySpace (lastD ' ' t) = false ∧ wordsSplit t ≠ []
      ∧ ∀ w ∈ wordsSplit t, w ≠ [] ∧ isOpW w = false ∧ '(' ∉ w ∧ ')' ∉ w :=
    fun t ht => wfToken_facts (List.all_eq_true.mp hts t ht)
  set j := joinSepL " OR ".data ts with hjdef
  have hj_ne : j ≠ [] := joinSepL_ne_nil hne (fun t ht => (hfacts t ht).1)
  have hj_head : headSp j = false :=
    joinSepL_headSp_false hne
      (fun t ht => ⟨(hfacts t ht).1, (hfacts t ht).2.1⟩)
  have hj_last : isPySpace (lastD ' ' j) = false :=
    joinSepL_lastD_nonspace hne
      (fun t ht => ⟨(hfacts t ht).1, (hfacts t ht).2.2.1⟩)
  have hwsj_ne : wordsSplit j ≠ [] := ws_ne_nil hj_ne hj_last
  have hwords : wordsSplit j = joinBlocks (ts.map wordsSplit) := ws_joinOR ts
  have hpar : ∀ v ∈ wordsSplit j, v ≠ [] ∧ '(' ∉ v ∧ ')' ∉ v := by
    rw [hwords]
    intro v hv
    rcases joinBlocks_mem v hv with ⟨b, hb, hvb⟩ | hOR
    · obtain ⟨t, ht, rfl⟩ := List.mem_map.mp hb
      have h5 := (hfacts t ht).2.2.2.2 v hvb
      exact ⟨h5.1, h5.2.2.1, h5.2.2.2⟩
    · subst hOR
      exact ⟨by decide, by decide, by decide⟩
  have hnoadj : noAdjOps (wordsSplit j) = true := by
    rw [hwords]
    apply joinBlocks_noAdjOps
    · intro b hb
      obtain ⟨t, ht, rfl⟩ := List.mem_map.mp hb
      exact (hfacts t ht).2.2.2.1
    · intro b hb w hw
      obtain ⟨t, ht, rfl⟩ := List.mem_map.mp hb
      exact ((hfacts t ht).2.2.2.2 w hw).2.1
  have hX : wordsSplit (j ++ [')']) = modLast (· ++ [')']) (wordsSplit j) :=
    ws_concat_nonspace (by decide) hj_last
  have hXhead : headSp (j ++ [')']) = false := by
    rw [headSp_append _ hj_ne]; exact hj_head
  obtain ⟨m1, mrest, hm⟩ :
      ∃ m1 mrest, modLast (· ++ [')']) (wordsSplit j) = m1 :: mrest := by
    cases hmm : modLast (· ++ [')']) (wordsSplit j) with
    | nil => exact absurd hmm (modLast_ne_nil _ hwsj_ne)
    | cons a b => exact ⟨a, b, rfl⟩
  have hWeq : wordsSplit ('(' :: (j ++ [')'])) = ('(' :: m1) :: mrest := by
    rw [ws_glue (by decide) hXhead, hX, hm]
  have hm1 : ∃ v ∈ wordsSplit j, m1 = v ∨ m1 = v ++ [')'] :=
    modLast_mem _ m1 (by rw [hm]; simp)
  have hmrest : ∀ w ∈ mrest, ∃ v ∈ wordsSplit j, w = v ∨ w = v ++ [')'] :=
    fun w hw => modLast_mem _ w (by rw [hm]; exact List.mem_cons.mpr (Or.inr hw))
  have hnoadjW : noAdjOps (m1 :: mrest) = true := by
    rw [← hm]
    exact noAdjOps_modLast _ hnoadj (fun w => isOpW_rparen w)
  have hshape_pp : ∀ w, (∃ v ∈ wordsSplit j, w = v ∨ w = v ++ [')']) →
      occursIn "()".data w = false := by
    rintro w ⟨v, hv, rfl | rfl⟩
    · exact no_pp_of_not_mem (hpar w hv).2.1
    · apply no_pp_of_not_mem
      simp only [List.mem_append, List.mem_singleton]
      rintro (h | h)
      · exact (hpar v hv).2.1 h
      · exact absurd h (by decide)
  refine ⟨by rw [hWeq]; simp, ?_, ?_, ?_, ?_⟩
  · rw [hWeq]
    exact isOpW_lparen m1
  · rw [hWeq]
    cases mrest with
    | nil => exact isOpW_lparen m1
    | cons r rs =>
      rw [lastW_cons _ (by simp), ← lastW_cons m1 (t := r :: rs) (by simp), ← hm,
        modLast_lastW _ hwsj_ne]
      exact isOpW_rparen _
  · rw [hWeq]
    exact noAdjOps_cons (Or.inl (isOpW_lparen m1)) (noAdjOps_tail hnoadjW)
  · rw [hWeq]
    intro w hw
    rcases List.mem_cons.mp hw with h | h
    · subst h
      obtain ⟨v, hv, hcase⟩ := hm1
      have hvfacts := hpar v hv
      rcases hcase with rfl | rfl
      · apply no_pp_lparen hvfacts.2.1
        intro hhd
        exact hvfacts.2.2 (hhd ▸ headD_mem 'x' hvfacts.1)
      · apply no_pp_lparen
        · simp only [List.mem_append, List.mem_singleton]
          rintro (h | h)
          · exact hvfacts.2.1 h
          · exact absurd h (by decide)
        · intro hhd
          cases hv2 : v with
          | nil => exact hvfacts.1 hv2
          | cons c t =>
            rw [hv2] at hhd
            simp only [List.cons_append, List.headD] at hhd
            apply hvfacts.2.2
            rw [hv2, hhd]
            simp
    · exact hshape_pp w (hmrest w h)

theorem ws_and_glue (X Y : Str) :
    wordsSplit (X ++ (' ' :: ("AND".data ++ (' ' :: Y))))
      = wordsSplit X ++ "AND".data :: wordsSplit Y := by
  rw [ws_append_space (by decide), ws_append_space (by decide)]
  have hA : wordsSplit "AND".data = ["AND".data] := by decide
  rw [hA]
  simp

theorem humans_wordsOK : wordsOK (wordsSplit "(humans[MeSH Terms])".data) := by
  unfold wordsOK
  refine ⟨by decide, by decide, by decide, by decide, ?_⟩
  intro w hw
  have hws : wordsSplit "(humans[MeSH Terms])".data
      = ["(humans[MeSH".data, "Terms])".data] := by decide
  rw [hws] at hw
  rcases List.mem_cons.mp hw with h | h
  · subst h; decide
  · rcases List.mem_cons.mp h with h | h
    · subst h; decide
    · simp at h

theorem defectFree_of_wordsOK {s : Str} (h : wordsOK (wordsSplit s)) :
    defectFreeQ s = true := by
  obtain ⟨h1, h2, h3, h4, h5⟩ := h
  have hocc : occursIn "()".data s = false := by
    cases he : occursIn "()".data s with
    | false => rfl
    | true =>
      obtain ⟨w, hw, hpp⟩ := occursIn_word (by decide) (by decide) he
      rw [h5 w hw] at hpp
      cases hpp
  unfold defectFreeQ noEmptyGroupB noDanglingB
  rw [hocc, h2, h3, h4]
  rfl

theorem pubmedQuery_defectFree {js ks : List Str} {humans : Bool}
    (hjs : js.all wfToken = true) (hks : ks.all wfToken = true)
    (hne : js ≠ []) :
    defectFreeQ (pubmedQuery js ks humans) = true := by
  have hjfacts := fun t ht => wfToken_facts (List.all_eq_true.mp hjs t ht)
  have hj_ne : joinSepL " OR ".data js ≠ [] :=
    joinSepL_ne_nil hne (fun t ht => (hjfacts t ht).1)
  have hGA := group_wordsOK hjs hne
  by_cases hksne : ks = []
  · subst hksne
    cases humans with
    | false =>
      have hq : pubmedQuery js [] false
          = pyStripL ('(' :: (joinSepL " OR ".data js ++ [')'])) := by
        simp [pubmedQuery, hj_ne]
      rw [hq]
      apply defectFree_of_wordsOK
      rw [ws_strip]
      exact hGA
    | true =>
      have hq : pubmedQuery js [] true
          = pyStripL (('(' :: (joinSepL " OR ".data js ++ [')']))
              ++ (' ' :: ("AND".data
                ++ (' ' :: "(humans[MeSH Terms])".data)))) := by
        simp [pubmedQuery, hj_ne]
      rw [hq]
      apply defectFree_of_wordsOK
      rw [ws_strip, ws_and_glue]
      exact wordsOK_and_append hGA humans_wordsOK
  · have hkfacts := fun t ht => wfToken_facts (List.all_eq_true.mp hks t ht)
    have hk_ne : joinSepL " OR ".data ks ≠ [] :=
      joinSepL_ne_nil hksne (fun t ht => (hkfacts t ht).1)
    have hGK := group_wordsOK hks hksne
    cases humans with
    | false =>
      have hq : pubmedQuery js ks false
          = pyStripL (('(' :: (joinSepL " OR ".data js ++ [')']))
              ++ (' ' :: ("AND".data
                ++ (' ' :: ('(' :: (joinSepL " OR ".data ks ++ [')'])))))) := by
        simp [pubmedQuery, hj_ne, hksne, hk_ne]
      rw [hq]
      apply defectFree_of_wordsOK
      rw [ws_strip, ws_and_glue]
      exact wordsOK_and_append hGA hGK
    | true =>
      have hq : pubmedQuery js ks true
          = pyStripL ((('(' :: (joinSepL " OR ".data js ++ [')']))
              ++ (' ' :: ("AND".data
                ++ (' ' :: ('(' :: (joinSepL " OR ".data ks ++ [')']))))))
              ++ (' ' :: ("AND".data
                ++ (' ' :: "(humans[MeSH Terms])".data)))) := by
        simp [pubmedQuery, hj_ne, hksne, hk_ne]
      rw [hq]
      apply defectFree_of_wordsOK
      rw [ws_strip, ws_and_glue, ws_and_glue]
      exact wordsOK_and_append (wordsOK_and_append hGA hGK) humans_wordsOK

/-! ### Boundary facts about pyStripL -/

theorem lastD_reverse (d : Char) (l : Str) :
    lastD d l.reverse = l.headD d := by
  cases l with
  | nil => rfl
  | cons c t =>
    rw [List.reverse_cons, lastD_concat]
    rfl

theorem headD_reverse (d : Char) (l : Str) :
    l.reverse.headD d = lastD d l := by
  have h := lastD_reverse d l.reverse
  rw [List.reverse_reverse] at h
  rw [← h]

theorem dropWhile_headD_not {p : Char → Bool} {l : Str} (d : Char)
    (h : l.dropWhile p ≠ []) : p ((l.dropWhile p).headD d) = false := by
  induction l with
  | nil => exact absurd rfl h
  | cons c t ih =>
    by_cases hc : p c = true
    · rw [List.dropWhile_cons, if_pos hc] at h ⊢
      exact ih h
    · simp only [Bool.not_eq_true] at hc
      rw [List.dropWhile_cons, if_neg (by simp [hc])]
      simpa using hc

theorem pyStrip_boundary (x : Str) :
    pyStripL x = [] ∨ (headSp (pyStripL x) = false
      ∧ isPySpace (lastD ' ' (pyStripL x)) = false) := by
  unfold pyStripL
  set z := (x.dropWhile isPySpace).reverse with hz
  cases hy : z.dropWhile isPySpace with
  | nil => exact Or.inl rfl
  | cons c t =>
    right
    have hc : isPySpace c = false := by
      have := dropWhile_headD_not (p := isPySpace) (l := z) ' ' (by rw [hy]; simp)
      rw [hy] at this
      simpa using this
    constructor
    · -- head of the reverse is the last element of z.dropWhile, which is
      -- the last element of z, i.e. the head of x.dropWhile
      have hzne : z ≠ [] := by
        intro he
        rw [he] at hy
        simp at hy
      have hxd : x.dropWhile isPySpace ≠ [] := by
        intro he
        apply hzne
        rw [hz, he]
        rfl
      have hlz : lastD ' ' (c :: t) = lastD ' ' z := by
        have hsplit := List.takeWhile_append_dropWhile (p := isPySpace) (l := z)
        conv_rhs => rw [← hsplit]
        rw [hy]
        exact (lastD_append ' ' _ (by simp)).symm
      have hlast : isPySpace (lastD ' ' z) = false := by
        rw [hz, lastD_reverse]
        have := dropWhile_headD_not (p := isPySpace) (l := x) ' ' hxd
        simpa using this
      cases hrev : (c :: t).reverse with
      | nil => simp at hrev
      | cons r rs =>
        have hr : r = lastD ' ' (c :: t) := by
          have h2 : (c :: t) = (r :: rs).reverse := by
            rw [← hrev, List.reverse_reverse]
          rw [h2, List.reverse_cons, lastD_concat]
        simp only [headSp]
        rw [hr, hlz]
        exact hlast
    · rw [lastD_reverse]
      simpa [List.headD] using hc

theorem pyStrip_id {l : Str} (h1 : headSp l = false)
    (h2 : isPySpace (lastD ' ' l) = false) : pyStripL l = l := by
  unfold pyStripL
  have hd1 : l.dropWhile isPySpace = l := by
    cases l with
    | nil => rfl
    | cons c t =>
      have hc : isPySpace c = false := by simpa [headSp] using h1
      simp [List.dropWhile_cons, hc]
  rw [hd1]
  have hd2 : l.reverse.dropWhile isPySpace = l.reverse := by
    cases hr : l.reverse with
    | nil => rfl
    | cons c rs =>
      have hl : l = (c :: rs).reverse := by rw [← hr, List.reverse_reverse]
      have hc : isPySpace c = false := by
        have hlast : lastD ' ' l = c := by
          rw [hl, List.reverse_cons]
          exact lastD_concat ' ' c rs.reverse
        rw [← hlast]
        exact h2
      simp [List.dropWhile_cons, hc]
  rw [hd2, List.reverse_reverse]

/-! ### Exact shape of the query for non-empty journals and keywords -/

theorem pubmedQuery_both_shape {js ks : List Str}
    (hjne : js ≠ []) (hkne : ks ≠ [])
    (hj : ∀ t ∈ js, t ≠ []) (hk : ∀ t ∈ ks, t ≠ []) :
    pubmedQuery js ks false
      = "(".data ++ joinSepL " OR ".data js ++ ") AND (".data
        ++ joinSepL " OR ".data ks ++ ")".data := by
  have hj_ne : joinSepL " OR ".data js ≠ [] := joinSepL_ne_nil hjne hj
  have hk_ne : joinSepL " OR ".data ks ≠ [] := joinSepL_ne_nil hkne hk
  have hq : pubmedQuery js ks false
      = pyStripL (('(' :: (joinSepL " OR ".data js ++ [')']))
          ++ (' ' :: ("AND".data
            ++ (' ' :: ('(' :: (joinSepL " OR ".data ks ++ [')'])))))) := by
    simp [pubmedQuery, hj_ne, hkne, hk_ne]
  rw [hq]
  rw [pyStrip_id (by rfl) ?hlast]
  case hlast =>
    rw [lastD_append ' ' _ (by simp)]
    rw [lastD_cons ' ' ' ' (by simp)]
    rw [lastD_append ' ' _ (by simp)]
    rw [lastD_cons ' ' ' ' (by simp)]
    rw [lastD_cons ' ' '(' (by simp)]
    rw [lastD_concat]
    decide
  have e1 : ("(".data : Str) = ['('] := rfl
  have e2 : ((") AND (".data : Str))
      = [')', ' ', 'A', 'N', 'D', ' ', '('] := rfl
  have e3 : ((")".data : Str)) = [')'] := rfl
  have e4 : (("AND".data : Str)) = ['A', 'N', 'D'] := rfl
  rw [e1, e2, e3, e4]
  simp [List.append_assoc]

/-! ### Deduplication lemmas -/

theorem dedupAux_sublist : ∀ (seen : List DedupKey) (l : List SummaryItem),
    List.Sublist (dedupAux seen l) l := by
  intro seen l
  induction l generalizing seen with
  | nil => simp [dedupAux]
  | cons r rs ih =>
    by_cases hk : dedupKey r ∈ seen
    · rw [show dedupAux seen (r :: rs) = dedupAux seen rs by
        simp [dedupAux, hk]]
      exact List.Sublist.cons r (ih seen)
    · rw [show dedupAux seen (r :: rs)
          = r :: dedupAux (dedupKey r :: seen) rs by simp [dedupAux, hk]]
      exact List.Sublist.cons₂ r (ih _)

theorem dedupAux_keys_notin : ∀ (seen : List DedupKey) (l : List SummaryItem)
    (r : SummaryItem), r ∈ dedupAux seen l → dedupKey r ∉ seen := by
  intro seen l
  induction l generalizing seen with
  | nil => intro r hr; simp [dedupAux] at hr
  | cons x xs ih =>
    intro r hr
    by_cases hk : dedupKey x ∈ seen
    · rw [show dedupAux seen (x :: xs) = dedupAux seen xs by
        simp [dedupAux, hk]] at hr
      exact ih seen r hr
    · rw [show dedupAux seen (x :: xs)
          = x :: dedupAux (dedupKey x :: seen) xs by simp [dedupAux, hk]] at hr
      rcases List.mem_cons.mp hr with h | h
      · subst h; exact hk
      · have h2 := ih _ r h
        intro hmem
        exact h2 (List.mem_cons.mpr (Or.inr hmem))

theorem dedupAux_keys_nodup : ∀ (seen : List DedupKey) (l : List SummaryItem),
    ((dedupAux seen l).map dedupKey).Nodup := by
  intro seen l
  induction l generalizing seen with
  | nil => simp [dedupAux]
  | cons x xs ih =>
    by_cases hk : dedupKey x ∈ seen
    · rw [show dedupAux seen (x :: xs) = dedupAux seen xs by
        simp [dedupAux, hk]]
      exact ih seen
    · rw [show dedupAux seen (x :: xs)
          = x :: dedupAux (dedupKey x :: seen) xs by simp [dedupAux, hk]]
      rw [List.map_cons, List.nodup_cons]
      constructor
      · intro hmem
        obtain ⟨r, hr, hkey⟩ := List.mem_map.mp hmem
        have h2 := dedupAux_keys_notin _ _ r hr
        exact h2 (by rw [hkey]; simp)
      · exact ih _

theorem dedupAux_mem_iff : ∀ (seen : List DedupKey) (l : List SummaryItem)
    (r : SummaryItem),
    r ∈ dedupAux seen l
      ↔ dedupKey r ∉ seen
        ∧ l.find? (fun x => decide (dedupKey x = dedupKey r)) = some r := by
  intro seen l
  induction l generalizing seen with
  | nil =>
    intro r
    simp [dedupAux]
  | cons x xs ih =>
    intro r
    by_cases hxr : dedupKey x = dedupKey r
    · have hfind : (x :: xs).find? (fun y => decide (dedupKey y = dedupKey r))
          = some x := List.find?_cons_of_pos _ (by simp [hxr])
      rw [hfind]
      by_cases hk : dedupKey x ∈ seen
      · rw [show dedupAux seen (x :: xs) = dedupAux seen xs by
          simp [dedupAux, hk]]
        constructor
        · intro hr
          exact absurd (hxr ▸ hk)
            (dedupAux_keys_notin seen xs r hr)
        · rintro ⟨hnot, heq⟩
          have : x = r := by injection heq
          subst this
          exact absurd hk (hxr ▸ hnot)
      · rw [show dedupAux seen (x :: xs)
            = x :: dedupAux (dedupKey x :: seen) xs by simp [dedupAux, hk]]
        constructor
        · intro hr
          rcases List.mem_cons.mp hr with h | h
          · subst h; exact ⟨hxr ▸ hk, rfl⟩
          · have h2 := dedupAux_keys_notin _ _ r h
            exact absurd (by rw [← hxr]; simp) h2
        · rintro ⟨hnot, heq⟩
          have : x = r := by injection heq
          subst this
          simp
    · have hfind : (x :: xs).find? (fun y => decide (dedupKey y = dedupKey r))
          = xs.find? (fun y => decide (dedupKey y = dedupKey r)) :=
        List.find?_cons_of_neg _ (by simp [hxr])
      rw [hfind]
      by_cases hk : dedupKey x ∈ seen
      · rw [show dedupAux seen (x :: xs) = dedupAux seen xs by
          simp [dedupAux, hk]]
        exact ih seen r
      · rw [show dedupAux seen (x :: xs)
            = x :: dedupAux (dedupKey x :: seen) xs by simp [dedupAux, hk]]
        constructor
        · intro hr
          rcases List.mem_cons.mp hr with h | h
          · exact absurd (h ▸ rfl) hxr
          · have h2 := (ih _ r).mp h
            refine ⟨?_, h2.2⟩
            intro hmem
            exact h2.1 (List.mem_cons.mpr (Or.inr hmem))
        · rintro ⟨hnot, heq⟩
          refine List.mem_cons.mpr (Or.inr ((ih _ r).mpr ⟨?_, heq⟩))
          intro hmem
          rcases List.mem_cons.mp hmem with h | h
          · exact hxr h.symm
          · exact hnot h

theorem dedupItems_mem_iff (l : List SummaryItem) (r : SummaryItem) :
    r ∈ dedupItems l
      ↔ l.find? (fun x => decide (dedupKey x = dedupKey r)) = some r := by
  unfold dedupItems
  rw [dedupAux_mem_iff]
  simp

theorem dedupItems_coverage (l : List SummaryItem) :
    ∀ r ∈ l, ∃ r', r' ∈ dedupItems l ∧ dedupKey r' = dedupKey r := by
  intro r hr
  have hsome : (l.find? (fun x => decide (dedupKey x = dedupKey r))).isSome :=
    List.find?_isSome.mpr ⟨r, hr, by simp⟩
  obtain ⟨r', hr'⟩ := Option.isSome_iff_exists.mp hsome
  have hkey : dedupKey r' = dedupKey r := by
    have := List.find?_some hr'
    simpa using this
  refine ⟨r', ?_, hkey⟩
  rw [dedupItems_mem_iff]
  have hpred : (fun x => decide (dedupKey x = dedupKey r'))
      = (fun x => decide (dedupKey x = dedupKey r)) := by
    funext x
    rw [hkey]
  rw [hpred]
  exact hr'

/-! ### Sorting lemmas -/

theorem dateLt_asymm {a b : Nat × Nat × Nat} (h : dateLt a b = true) :
    dateLt b a = false := by
  obtain ⟨a1, a2, a3⟩ := a
  obtain ⟨b1, b2, b3⟩ := b
  simp only [dateLt, Bool.or_eq_true, Bool.and_eq_true, decide_eq_true_eq] at h
  cases hd : dateLt (b1, b2, b3) (a1, a2, a3) with
  | false => rfl
  | true =>
    exfalso
    simp only [dateLt, Bool.or_eq_true, Bool.and_eq_true,
      decide_eq_true_eq] at hd
    omega

theorem dateLt_cross {x y z : Nat × Nat × Nat} (h1 : dateLt y x = true)
    (h2 : dateLt y z = false) : dateLt x z = false := by
  obtain ⟨x1, x2, x3⟩ := x
  obtain ⟨y1, y2, y3⟩ := y
  obtain ⟨z1, z2, z3⟩ := z
  simp only [dateLt, Bool.or_eq_true, Bool.and_eq_true, decide_eq_true_eq] at h1
  cases hd : dateLt (x1, x2, x3) (z1, z2, z3) with
  | false => rfl
  | true =>
    exfalso
    simp only [dateLt, Bool.or_eq_true, Bool.and_eq_true, decide_eq_true_eq,
      Bool.or_eq_false_iff, Bool.and_eq_false_iff, decide_eq_false_iff_not,
      not_lt] at hd h2
    omega

theorem dateLt_trans_ne {x y z : Nat × Nat × Nat} (h1 : dateLt x y = false)
    (h2 : dateLt y z = false) : dateLt x z = false := by
  obtain ⟨x1, x2, x3⟩ := x
  obtain ⟨y1, y2, y3⟩ := y
  obtain ⟨z1, z2, z3⟩ := z
  simp only [dateLt, Bool.or_eq_false_iff, Bool.and_eq_false_iff,
    decide_eq_false_iff_not, not_lt] at h1 h2
  cases hd : dateLt (x1, x2, x3) (z1, z2, z3) with
  | false => rfl
  | true =>
    exfalso
    simp only [dateLt, Bool.or_eq_true, Bool.and_eq_true,
      decide_eq_true_eq] at hd
    omega

theorem insertDesc_perm (x : SummaryItem) (l : List SummaryItem) :
    (insertDesc x l).Perm (x :: l) := by
  induction l with
  | nil => simp [insertDesc]
  | cons y ys ih =>
    by_cases hlt : dateLt (sortKey y) (sortKey x) = true
    · rw [show insertDesc x (y :: ys) = x :: y :: ys by simp [insertDesc, hlt]]
    · rw [show insertDesc x (y :: ys) = y :: insertDesc x ys by
        simp [insertDesc, hlt]]
      exact (List.Perm.cons y ih).trans (List.Perm.swap x y ys)

theorem insertDesc_mem {z x : SummaryItem} {l : List SummaryItem} :
    z ∈ insertDesc x l ↔ z = x ∨ z ∈ l := by
  rw [(insertDesc_perm x l).mem_iff]
  simp

theorem insertDesc_sorted (x : SummaryItem) {l : List SummaryItem}
    (h : sortedDesc l) : sortedDesc (insertDesc x l) := by
  induction l with
  | nil => simp [insertDesc, sortedDesc]
  | cons y ys ih =>
    rw [sortedDesc, List.pairwise_cons] at h
    by_cases hlt : dateLt (sortKey y) (sortKey x) = true
    · rw [show insertDesc x (y :: ys) = x :: y :: ys by simp [insertDesc, hlt]]
      rw [sortedDesc, List.pairwise_cons]
      constructor
      · intro z hz
        rcases List.mem_cons.mp hz with hz | hz
        · subst hz; exact dateLt_asymm hlt
        · exact dateLt_cross hlt (h.1 z hz)
      · rw [← sortedDesc] at h ⊢
        exact List.Pairwise.cons h.1 h.2
    · rw [show insertDesc x (y :: ys) = y :: insertDesc x ys by
        simp [insertDesc, hlt]]
      rw [sortedDesc, List.pairwise_cons]
      constructor
      · intro z hz
        rcases insertDesc_mem.mp hz with hz | hz
        · subst hz
          simpa using hlt
        · exact h.1 z hz
      · exact ih h.2

theorem insertDesc_filter (k : Nat × Nat × Nat) (x : SummaryItem)
    {l : List SummaryItem} (hs : sortedDesc l) :
    (insertDesc x l).filter (fun z => decide (sortKey z = k))
      = if sortKey x = k then
          l.filter (fun z => decide (sortKey z = k)) ++ [x]
        else l.filter (fun z => decide (sortKey z = k)) := by
  induction l with
  | nil =>
    by_cases hx : sortKey x = k <;> simp [insertDesc, List.filter, hx]
  | cons y ys ih =>
    rw [sortedDesc, List.pairwise_cons] at hs
    by_cases hlt : dateLt (sortKey y) (sortKey x) = true
    · rw [show insertDesc x (y :: ys) = x :: y :: ys by simp [insertDesc, hlt]]
      by_cases hx : sortKey x = k
      · have hnone : (y :: ys).filter (fun z => decide (sortKey z = k)) = [] := by
          apply List.filter_eq_nil_iff.mpr
          intro z hz
          simp only [decide_eq_true_eq]
          intro hzk
          have hzx : sortKey z = sortKey x := by rw [hzk, hx]
          have : dateLt (sortKey y) (sortKey z) = true := by
            rw [hzx]; exact hlt
          rcases List.mem_cons.mp hz with hz | hz
          · subst hz
            obtain ⟨a1, a2, a3⟩ := sortKey z
            simp only [dateLt, Bool.or_eq_true, Bool.and_eq_true,
              decide_eq_true_eq] at this
            omega
          · rw [hs.1 z hz] at this
            cases this
        rw [if_pos hx, hnone]
        simp [List.filter_cons, hx, hnone]
      · rw [if_neg hx]
        simp [List.filter_cons, hx]
    · rw [show insertDesc x (y :: ys) = y :: insertDesc x ys by
        simp [insertDesc, hlt]]
      rw [List.filter_cons, ih hs.2]
      by_cases hx : sortKey x = k <;> by_cases hy : sortKey y = k <;>
        simp [List.filter_cons, hx, hy]

theorem sortDesc_aux_perm :
    ∀ (l acc : List SummaryItem),
    (l.foldl (fun a x => insertDesc x a) acc).Perm (acc ++ l) := by
  intro l
  induction l with
  | nil => intro acc; simp
  | cons x xs ih =>
    intro acc
    show (xs.foldl (fun a y => insertDesc y a) (insertDesc x acc)).Perm
      (acc ++ x :: xs)
    have h1 := ih (insertDesc x acc)
    have h2 : (insertDesc x acc ++ xs).Perm ((x :: acc) ++ xs) :=
      (insertDesc_perm x acc).append_right xs
    have h3 : ((x :: acc) ++ xs) = x :: (acc ++ xs) := rfl
    have h4 : (x :: (acc ++ xs)).Perm (acc ++ x :: xs) := List.perm_middle.symm
    exact h1.trans (h2.trans (h3 ▸ h4))

theorem sortDesc_perm (l : List SummaryItem) : (sortDesc l).Perm l := by
  have h := sortDesc_aux_perm l []
  simpa [sortDesc] using h

theorem sortDesc_aux_sorted :
    ∀ (l acc : List SummaryItem), sortedDesc acc →
    sortedDesc (l.foldl (fun a x => insertDesc x a) acc) := by
  intro l
  induction l with
  | nil => intro acc h; exact h
  | cons x xs ih =>
    intro acc h
    exact ih (insertDesc x acc) (insertDesc_sorted x h)

theorem sortDesc_sorted (l : List SummaryItem) : sortedDesc (sortDesc l) :=
  sortDesc_aux_sorted l [] (by simp [sortedDesc])

theorem sortDesc_aux_filter (k : Nat × Nat × Nat) :
    ∀ (l acc : List SummaryItem), sortedDesc acc →
    (l.foldl (fun a x => insertDesc x a) acc).filter
        (fun z => decide (sortKey z = k))
      = acc.filter (fun z => decide (sortKey z = k))
        ++ l.filter (fun z => decide (sortKey z = k)) := by
  intro l
  induction l with
  | nil => intro acc _; simp
  | cons x xs ih =>
    intro acc h
    have hstep := ih (insertDesc x acc) (insertDesc_sorted x h)
    calc ((x :: xs).foldl (fun a y => insertDesc y a) acc).filter
          (fun z => decide (sortKey z = k))
        = (xs.foldl (fun a y => insertDesc y a) (insertDesc x acc)).filter
          (fun z => decide (sortKey z = k)) := rfl
      _ = (insertDesc x acc).filter (fun z => decide (sortKey z = k))
          ++ xs.filter (fun z => decide (sortKey z = k)) := hstep
      _ = acc.filter (fun z => decide (sortKey z = k))
          ++ (x :: xs).filter (fun z => decide (sortKey z = k)) := by
        rw [insertDesc_filter k x h]
        by_cases hx : sortKey x = k <;>
          simp [List.filter_cons, hx, List.append_assoc]

theorem sortDesc_stable (l : List SummaryItem) (k : Nat × Nat × Nat) :
    (sortDesc l).filter (fun z => decide (sortKey z = k))
      = l.filter (fun z => decide (sortKey z = k)) := by
  have h := sortDesc_aux_filter k l [] (by simp [sortedDesc])
  simpa [sortDesc] using h

/-! ### Snippet trimming and sentence-tail lemmas -/

theorem lastD_mem {l : Str} (d : Char) (h : l ≠ []) : lastD d l ∈ l := by
  induction l with
  | nil => exact absurd rfl h
  | cons c t ih =>
    cases t with
    | nil => simp [lastD]
    | cons b u =>
      rw [lastD_cons d c (by simp)]
      exact List.mem_cons.mpr (Or.inr (ih (by simp)))

theorem modLast_concat (f : Str → Str) (l : List Str) (w : Str) :
    modLast f (l ++ [w]) = l ++ [f w] := by
  induction l with
  | nil => rfl
  | cons a t ih =>
    cases t with
    | nil => simp [modLast]
    | cons b t2 =>
      have h1 : modLast f (a :: ((b :: t2) ++ [w]))
          = a :: modLast f ((b :: t2) ++ [w]) := by
        simp [modLast]
      rw [List.cons_append, h1, ih]
      simp

theorem word_lastD_nonspace {v : Str} (h1 : v ≠ [])
    (h2 : v.all (fun x => !isPySpace x) = true) :
    isPySpace (lastD ' ' v) = false := by
  have hmem := lastD_mem ' ' h1
  have := List.all_eq_true.mp h2 _ hmem
  simpa using this

theorem trim_le {t : Str} {m : Nat} (h : (wordsSplit t).length ≤ m) :
    trimWords t m = t := by
  simp [trimWords, h]

theorem trim_gt {t : Str} {m : Nat} (hm : 0 < m)
    (h : m < (wordsSplit t).length) :
    ∃ rest w, (wordsSplit t).take m = rest ++ [w]
      ∧ wordsSplit (trimWords t m) = rest ++ [w ++ "…".data] := by
  have hlen : ((wordsSplit t).take m).length = m := by
    rw [List.length_take]
    omega
  have htne : (wordsSplit t).take m ≠ [] := by
    intro he
    rw [he] at hlen
    simp at hlen
    omega
  obtain ⟨rest, w, hrw⟩ : ∃ rest w, (wordsSplit t).take m = rest ++ [w] :=
    ⟨((wordsSplit t).take m).dropLast, ((wordsSplit t).take m).getLast htne,
      (List.dropLast_append_getLast htne).symm⟩
  refine ⟨rest, w, hrw, ?_⟩
  have hdef : trimWords t m
      = joinSepL " ".data ((wordsSplit t).take m) ++ "…".data := by
    unfold trimWords
    rw [if_neg (by omega)]
  rw [hdef]
  have hwords : ∀ v ∈ (wordsSplit t).take m,
      v ≠ [] ∧ v.all (fun x => !isPySpace x) = true :=
    fun v hv => ws_words v ((List.take_sublist m (wordsSplit t)).subset hv)
  have hjoin : wordsSplit (joinSepL " ".data ((wordsSplit t).take m))
      = (wordsSplit t).take m := ws_join_space_words hwords
  have hlast : isPySpace
      (lastD ' ' (joinSepL " ".data ((wordsSplit t).take m))) = false :=
    joinSepL_lastD_nonspace htne
      (fun v hv => ⟨(hwords v hv).1,
        word_lastD_nonspace (hwords v hv).1 (hwords v hv).2⟩)
  have hell : ("…".data : Str) = ['…'] := rfl
  rw [hell, ws_concat_nonspace (by decide) hlast, hjoin, hrw, modLast_concat]

theorem ws_join_pieces :
    ∀ L : List Str,
    wordsSplit (joinSepL " ".data L) = (L.map wordsSplit).flatten := by
  intro L
  induction L with
  | nil => rfl
  | cons p ps ih =>
    cases ps with
    | nil => simp [joinSepL]
    | cons p2 ps2 =>
      have hjoin : joinSepL " ".data (p :: p2 :: ps2)
          = p ++ ' ' :: joinSepL " ".data (p2 :: ps2) := by
        have hdata : (" ".data : Str) = [' '] := rfl
        simp [joinSepL, hdata, List.append_assoc]
      rw [hjoin, ws_append_space (by decide), ih]
      simp

theorem flatten_filter_ne (L : List Str) :
    ((L.filter (fun p => p ≠ [])).map wordsSplit).flatten
      = (L.map wordsSplit).flatten := by
  induction L with
  | nil => rfl
  | cons p ps ih =>
    by_cases hp : p = []
    · have hf : (p :: ps).filter (fun p => p ≠ [])
          = ps.filter (fun p => p ≠ []) := by
        rw [List.filter_cons, if_neg (by simp [hp])]
      rw [hf, ih, List.map_cons, List.flatten_cons, hp, ws_nil,
        List.nil_append]
    · have hf : (p :: ps).filter (fun p => p ≠ [])
          = p :: ps.filter (fun p => p ≠ []) := by
        rw [List.filter_cons, if_pos (by simp [hp])]
      rw [hf, List.map_cons, List.map_cons, List.flatten_cons,
        List.flatten_cons, ih]

theorem lastSentences_eq (text : Str) (n : Nat) :
    lastSentences text n
      = (if (sentSplit (pyStripL text)).filter (fun p => p ≠ []) = []
         then ([] : Str)
         else pyStripL (joinSepL " ".data
           (((sentSplit (pyStripL text)).filter (fun p => p ≠ [])).drop
             (((sentSplit (pyStripL text)).filter (fun p => p ≠ [])).length
               - n)))) := rfl

theorem lastSentences_suffix (text : Str) (n : Nat) :
    ∃ pre, pre ++ wordsSplit (lastSentences text n) = wordsSplit text := by
  by_cases hp : (sentSplit (pyStripL text)).filter (fun p => p ≠ []) = []
  · have hls : lastSentences text n = [] := by
      rw [lastSentences_eq, if_pos hp]
    rw [hls]
    exact ⟨wordsSplit text, by simp [ws_nil]⟩
  · have hdef : lastSentences text n
        = pyStripL (joinSepL " ".data
            (((sentSplit (pyStripL text)).filter (fun p => p ≠ [])).drop
              (((sentSplit (pyStripL text)).filter (fun p => p ≠ [])).length - n))) := by
      rw [lastSentences_eq, if_neg hp]
    set parts := (sentSplit (pyStripL text)).filter (fun p => p ≠ []) with hpartsdef
    rw [hdef, ws_strip, ws_join_pieces]
    refine ⟨((parts.take (parts.length - n)).map wordsSplit).flatten, ?_⟩
    calc ((parts.take (parts.length - n)).map wordsSplit).flatten
          ++ ((parts.drop (parts.length - n)).map wordsSplit).flatten
        = (((parts.take (parts.length - n))
            ++ parts.drop (parts.length - n)).map wordsSplit).flatten := by
          rw [List.map_append, List.flatten_append]
      _ = (parts.map wordsSplit).flatten := by
          rw [List.take_append_drop]
      _ = ((sentSplit (pyStripL text)).map wordsSplit).flatten := by
          rw [hpartsdef, flatten_filter_ne]
      _ = wordsSplit (pyStripL text) := ws_sent_join _
      _ = wordsSplit text := ws_strip text

theorem buildSnippet_some (me : MetaEntry) :
    buildSnippet (some me)
      = (if pyStripL (me.conclusion.getD []) ≠ [] then
           (some "Conclusion".data,
            some (trimWords (pyStripL (me.conclusion.getD []))
              SNIPPET_MAX_WORDS))
         else if pyStripL (me.abstract.getD []) ≠ [] then
           (some "From abstract".data,
            some (trimWords
              (if lastSentences (pyStripL (me.abstract.getD [])) 2 ≠ []
               then lastSentences (pyStripL (me.abstract.getD [])) 2
               else pyStripL (me.abstract.getD [])) SNIPPET_MAX_WORDS))
         else (none, none)) := rfl

theorem buildSnippet_words {me : MetaEntry} {lab snip : Str}
    (h : buildSnippet (some me) = (some lab, some snip)) :
    ∃ ws0, List.Sublist ws0 (wordsSplit (snippetSource me))
      ∧ (wordsSplit snip = ws0
        ∨ ∃ rest w, ws0 = rest ++ [w]
            ∧ wordsSplit snip = rest ++ [w ++ "…".data]) := by
  rw [buildSnippet_some] at h
  by_cases hc : pyStripL (me.conclusion.getD []) ≠ []
  · have hsrc : snippetSource me = me.conclusion.getD [] := by
      simp [snippetSource, hc]
    have hsnip : snip = trimWords (pyStripL (me.conclusion.getD []))
        SNIPPET_MAX_WORDS := by
      rw [if_pos hc] at h
      exact (Option.some.inj ((Prod.mk.injEq _ _ _ _).mp h).2).symm
    by_cases hlen : (wordsSplit (pyStripL (me.conclusion.getD []))).length
        ≤ SNIPPET_MAX_WORDS
    · refine ⟨wordsSplit snip, ?_, Or.inl rfl⟩
      rw [hsnip, trim_le hlen, ws_strip, hsrc]
    · obtain ⟨rest, w, hrw, hwords⟩ :=
        trim_gt (by decide) (by omega)
          (t := pyStripL (me.conclusion.getD [])) (m := SNIPPET_MAX_WORDS)
      refine ⟨rest ++ [w], ?_, Or.inr ⟨rest, w, rfl, by rw [hsnip, hwords]⟩⟩
      rw [← hrw, hsrc, ← ws_strip (me.conclusion.getD [])]
      exact List.take_sublist _ _
  · have hsrc : snippetSource me = me.abstract.getD [] := by
      simp [snippetSource, hc]
    by_cases ha : pyStripL (me.abstract.getD []) ≠ []
    · have hsnip : snip = trimWords
          (if lastSentences (pyStripL (me.abstract.getD [])) 2 ≠ []
           then lastSentences (pyStripL (me.abstract.getD [])) 2
           else pyStripL (me.abstract.getD [])) SNIPPET_MAX_WORDS := by
        rw [if_neg hc, if_pos ha] at h
        exact (Option.some.inj ((Prod.mk.injEq _ _ _ _).mp h).2).symm
      set fb := if lastSentences (pyStripL (me.abstract.getD [])) 2 ≠ []
          then lastSentences (pyStripL (me.abstract.getD [])) 2
          else pyStripL (me.abstract.getD []) with hfb
      have hsuffix : ∃ pre, pre ++ wordsSplit fb
          = wordsSplit (me.abstract.getD []) := by
        by_cases hl : lastSentences (pyStripL (me.abstract.getD [])) 2 ≠ []
        · rw [hfb, if_pos hl]
          obtain ⟨pre, hpre⟩ :=
            lastSentences_suffix (pyStripL (me.abstract.getD [])) 2
          exact ⟨pre, by rw [hpre, ws_strip]⟩
        · rw [hfb, if_neg hl]
          exact ⟨[], by rw [List.nil_append, ws_strip]⟩
      obtain ⟨pre, hpre⟩ := hsuffix
      have hsub : List.Sublist (wordsSplit fb)
          (wordsSplit (snippetSource me)) := by
        rw [hsrc, ← hpre]
        exact List.sublist_append_right pre (wordsSplit fb)
      by_cases hlen : (wordsSplit fb).length ≤ SNIPPET_MAX_WORDS
      · refine ⟨wordsSplit snip, ?_, Or.inl rfl⟩
        rw [hsnip, trim_le hlen]
        exact hsub
      · obtain ⟨rest, w, hrw, hwords⟩ :=
          trim_gt (by decide) (by omega) (t := fb) (m := SNIPPET_MAX_WORDS)
        refine ⟨rest ++ [w], ?_, Or.inr ⟨rest, w, rfl, ?_⟩⟩
        · rw [← hrw]
          exact (List.take_sublist _ _).trans hsub
        · rw [hsnip, hwords]
    · exfalso
      rw [if_neg hc, if_neg ha] at h
      simp at h

/-! ### Extraction lemmas for `efetch_abstract_map` -/

theorem filter_imp_sublist {α : Type} (p q : α → Bool) (l : List α)
    (h : ∀ a, p a = true → q a = true) :
    List.Sublist (l.filter p) (l.filter q) := by
  induction l with
  | nil => simp
  | cons a t ih =>
    rw [List.filter_cons, List.filter_cons]
    by_cases hp : p a = true
    · rw [if_pos hp, if_pos (h a hp)]
      exact ih.cons₂ a
    · rw [if_neg hp]
      by_cases hq : q a = true
      · rw [if_pos hq]
        exact ih.cons a
      · rw [if_neg hq]
        exact ih

theorem conclusionTexts_sublist (secs : List AbsSection) :
    List.Sublist (conclusionTexts secs) (abstractTexts secs) := by
  unfold conclusionTexts abstractTexts
  exact (filter_imp_sublist _ _ secs
    (fun s hs => by
      simp only [decide_eq_true_eq] at hs ⊢
      exact hs.1)).map sectionText

theorem abstractTexts_stripped (secs : List AbsSection) :
    ∀ t ∈ abstractTexts secs,
    t ≠ [] ∧ headSp t = false ∧ isPySpace (lastD ' ' t) = false := by
  intro t ht
  unfold abstractTexts at ht
  obtain ⟨s, hs, rfl⟩ := List.mem_map.mp ht
  have hne : sectionText s ≠ [] := by
    have := (List.mem_filter.mp hs).2
    simpa using this
  rcases pyStrip_boundary s.text with hb | ⟨h1, h2⟩
  · exact absurd hb hne
  · exact ⟨hne, h1, h2⟩

theorem joinSep_mem_decomp (sep : Str) :
    ∀ {L : List Str} {t : Str}, t ∈ L →
    ∃ pre suf, joinSepL sep L = pre ++ (t ++ suf) := by
  intro L
  induction L with
  | nil =>
    intro t ht
    simp at ht
  | cons a l ih =>
    intro t ht
    rcases List.mem_cons.mp ht with rfl | hm
    · cases l with
      | nil => exact ⟨[], [], by simp [joinSepL]⟩
      | cons b l2 =>
        exact ⟨[], sep ++ joinSepL sep (b :: l2),
          by simp [joinSepL, List.append_assoc]⟩
    · obtain ⟨pre, suf, hps⟩ := ih hm
      cases l with
      | nil => simp at hm
      | cons b l2 =>
        refine ⟨a ++ sep ++ pre, suf, ?_⟩
        show joinSepL sep (a :: b :: l2) = _
        rw [joinSepL, hps]
        simp [List.append_assoc]

theorem occursIn_joinSep_mem {t : Str} {L : List Str} (h : t ∈ L)
    (sep : Str) : occursIn t (joinSepL sep L) = true := by
  obtain ⟨pre, suf, hps⟩ := joinSep_mem_decomp sep h
  exact occursIn_intro t pre suf _ hps

theorem pyStrip_joinSep_abstract {secs : List AbsSection}
    (h : abstractTexts secs ≠ []) :
    pyStripL (joinSepL " ".data (abstractTexts secs))
      = joinSepL " ".data (abstractTexts secs) := by
  apply pyStrip_id
  · exact joinSepL_headSp_false h
      (fun t ht => ⟨(abstractTexts_stripped secs t ht).1,
        (abstractTexts_stripped secs t ht).2.1⟩)
  · exact joinSepL_lastD_nonspace h
      (fun t ht => ⟨(abstractTexts_stripped secs t ht).1,
        (abstractTexts_stripped secs t ht).2.2⟩)

theorem pyStrip_joinSep_conclusion {secs : List AbsSection}
    (h : conclusionTexts secs ≠ []) :
    pyStripL (joinSepL " ".data (conclusionTexts secs))
      = joinSepL " ".data (conclusionTexts secs) := by
  have hsub := (conclusionTexts_sublist secs).subset
  apply pyStrip_id
  · exact joinSepL_headSp_false h
      (fun t ht => ⟨(abstractTexts_stripped secs t (hsub ht)).1,
        (abstractTexts_stripped secs t (hsub ht)).2.1⟩)
  · exact joinSepL_lastD_nonspace h
      (fun t ht => ⟨(abstractTexts_stripped secs t (hsub ht)).1,
        (abstractTexts_stripped secs t (hsub ht)).2.2⟩)

theorem joinSep_abstract_ne_nil {secs : List AbsSection}
    (h : abstractTexts secs ≠ []) :
    joinSepL " ".data (abstractTexts secs) ≠ [] :=
  joinSepL_ne_nil h (fun t ht => (abstractTexts_stripped secs t ht).1)

theorem joinSep_conclusion_ne_nil {secs : List AbsSection}
    (h : conclusionTexts secs ≠ []) :
    joinSepL " ".data (conclusionTexts secs) ≠ [] :=
  joinSepL_ne_nil h
    (fun t ht => (abstractTexts_stripped secs t
      ((conclusionTexts_sublist secs).subset ht)).1)

theorem conclusionTexts_ne_nil_abstract {secs : List AbsSection}
    (h : conclusionTexts secs ≠ []) : abstractTexts secs ≠ [] := by
  intro he
  rcases List.exists_mem_of_ne_nil _ h with ⟨t, ht⟩
  have := (conclusionTexts_sublist secs).subset ht
  rw [he] at this
  simp at this

/-! ### Locating embedded fields in the rendered outputs -/

theorem leadsWith_append {n l : Str} (t : Str) (h : leadsWith n l = true) :
    leadsWith n (l ++ t) = true := by
  induction n generalizing l with
  | nil => simp [leadsWith_nil]
  | cons a as ih =>
    cases l with
    | nil => simp [leadsWith] at h
    | cons b bs =>
      simp [leadsWith] at h ⊢
      exact ⟨h.1, ih h.2⟩

theorem occursIn_nil (l : Str) : occursIn [] l = true := by
  cases l with
  | nil => rfl
  | cons c t => simp [occursIn, leadsWith_nil]

theorem occursIn_append_left (n s t : Str) (h : occursIn n s = true) :
    occursIn n (s ++ t) = true := by
  induction s with
  | nil =>
    have hn : n = [] := by
      cases n with
      | nil => rfl
      | cons a b => simp [occursIn, List.isEmpty] at h
    subst hn
    exact occursIn_nil t
  | cons c cs ih =>
    have h2 : leadsWith n (c :: cs) = true ∨ occursIn n cs = true := by
      simpa [occursIn] using h
    rcases h2 with hlw | ho
    · exact occursIn_of_leadsWith (by
        rw [List.cons_append] at *
        exact leadsWith_append t hlw)
    · rw [List.cons_append]
      exact occursIn_cons n c (cs ++ t) (ih ho)

theorem flatten_mem_decomp {L : List Str} {x : Str} (h : x ∈ L) :
    ∃ pre suf, L.flatten = pre ++ (x ++ suf) := by
  induction L with
  | nil => simp at h
  | cons a l ih =>
    rcases List.mem_cons.mp h with rfl | hm
    · exact ⟨[], l.flatten, by simp⟩
    · obtain ⟨pre, suf, hps⟩ := ih hm
      exact ⟨a ++ pre, suf, by simp [hps, List.append_assoc]⟩

theorem occursIn_buildHtml {items : List SummaryItem} {it : SummaryItem}
    {mindate maxdate : Str} {metaMap : Option (List (Str × MetaEntry))}
    {baseUrl sub : Str} (hit : it ∈ items)
    (h : occursIn sub (htmlRow metaMap baseUrl it) = true) :
    occursIn sub (buildHtml items mindate maxdate metaMap baseUrl) = true := by
  have hne : items ≠ [] := by
    rintro rfl
    simp at hit
  obtain ⟨pre, suf, hps⟩ :=
    flatten_mem_decomp (List.mem_map_of_mem (htmlRow metaMap baseUrl) hit)
  unfold buildHtml
  rw [if_neg hne, hps]
  apply occursIn_append_left
  apply occursIn_append_right
  apply occursIn_append_right
  apply occursIn_append_left
  exact h

theorem buildAbstractsPage_eq (items : List SummaryItem)
    (metaMap : List (Str × MetaEntry)) (mindate maxdate : Str) :
    buildAbstractsPage items metaMap mindate maxdate
      = "<!doctype html>\n<html lang=\"en\"><head>\n<meta charset=\"utf-8\" />\n<title>Pain Literature Abstracts — ".data
        ++ mindate ++ " to ".data ++ maxdate
        ++ "</title>\n<meta name=\"viewport\" content=\"width=device-width, initial-scale=1\" />\n</head><body>\n<a id=\"top\"></a>\n<h1>Pain Literature Abstracts</h1>\n<p>Coverage (EDAT): ".data
        ++ mindate ++ " to ".data ++ maxdate ++ "</p>\n".data
        ++ (if items.map (pageRow metaMap) ≠ []
            then joinSepL " ".data (items.map (pageRow metaMap))
            else "<p>No abstracts this week.</p>".data)
        ++ "\n</body></html>".data := rfl

theorem occursIn_buildPage {items : List SummaryItem} {it : SummaryItem}
    {metaMap : List (Str × MetaEntry)} {mindate maxdate sub : Str}
    (hit : it ∈ items) (h : occursIn sub (pageRow metaMap it) = true) :
    occursIn sub (buildAbstractsPage items metaMap mindate maxdate) = true := by
  have hmem : pageRow metaMap it ∈ items.map (pageRow metaMap) :=
    List.mem_map_of_mem _ hit
  have hrne : items.map (pageRow metaMap) ≠ [] := by
    intro he
    rw [he] at hmem
    simp at hmem
  obtain ⟨pre, suf, hps⟩ := joinSep_mem_decomp " ".data hmem
  rw [buildAbstractsPage_eq, if_pos hrne, hps]
  apply occursIn_append_left
  apply occursIn_append_right
  apply occursIn_append_right
  apply occursIn_append_left
  exact h

theorem htmlRow_decomp (metaMap : Option (List (Str × MetaEntry)))
    (baseUrl : Str) (it : SummaryItem) :
    ∃ D F S, htmlRow metaMap baseUrl it
      = "<li><a href=\"".data ++ it.url ++ "\">".data ++ htmlEscapeL it.title
        ++ "</a> — <em>".data ++ htmlEscapeL it.journal ++ "</em> (".data
        ++ htmlEscapeL it.date ++ ")".data ++ D ++ F ++ S ++ "</li>".data
      ∧ (it.doi ≠ [] →
          D = " | DOI: <a ".data
            ++ ("href=\"https://doi.org/".data ++ it.doi ++ "\"".data)
            ++ ">".data ++ htmlEscapeL it.doi ++ "</a>".data) := by
  refine ⟨_, _, _, rfl, fun hd => ?_⟩
  rw [if_pos hd]

theorem htmlRow_has_title (metaMap : Option (List (Str × MetaEntry)))
    (baseUrl : Str) (it : SummaryItem) :
    occursIn (htmlEscapeL it.title) (htmlRow metaMap baseUrl it) = true := by
  obtain ⟨D, F, S, heq, -⟩ := htmlRow_decomp metaMap baseUrl it
  exact occursIn_intro _
    ("<li><a href=\"".data ++ it.url ++ "\">".data)
    ("</a> — <em>".data ++ htmlEscapeL it.journal ++ "</em> (".data
      ++ htmlEscapeL it.date ++ ")".data ++ D ++ F ++ S ++ "</li>".data) _
    (by rw [heq]; simp [List.append_assoc])

theorem htmlRow_has_journal (metaMap : Option (List (Str × MetaEntry)))
    (baseUrl : Str) (it : SummaryItem) :
    occursIn (htmlEscapeL it.journal) (htmlRow metaMap baseUrl it) = true := by
  obtain ⟨D, F, S, heq, -⟩ := htmlRow_decomp metaMap baseUrl it
  exact occursIn_intro _
    ("<li><a href=\"".data ++ it.url ++ "\">".data ++ htmlEscapeL it.title
      ++ "</a> — <em>".data)
    ("</em> (".data ++ htmlEscapeL it.date ++ ")".data ++ D ++ F ++ S
      ++ "</li>".data) _
    (by rw [heq]; simp [List.append_assoc])

theorem htmlRow_has_date (metaMap : Option (List (Str × MetaEntry)))
    (baseUrl : Str) (it : SummaryItem) :
    occursIn (htmlEscapeL it.date) (htmlRow metaMap baseUrl it) = true := by
  obtain ⟨D, F, S, heq, -⟩ := htmlRow_decomp metaMap baseUrl it
  exact occursIn_intro _
    ("<li><a href=\"".data ++ it.url ++ "\">".data ++ htmlEscapeL it.title
      ++ "</a> — <em>".data ++ htmlEscapeL it.journal ++ "</em> (".data)
    (")".data ++ D ++ F ++ S ++ "</li>".data) _
    (by rw [heq]; simp [List.append_assoc])

theorem htmlRow_has_rawdoi_href {it : SummaryItem} (hd : it.doi ≠ [])
    (metaMap : Option (List (Str × MetaEntry))) (baseUrl : Str) :
    occursIn ("href=\"https://doi.org/".data ++ it.doi ++ "\"".data)
      (htmlRow metaMap baseUrl it) = true := by
  obtain ⟨D, F, S, heq, hD⟩ := htmlRow_decomp metaMap baseUrl it
  rw [hD hd] at heq
  exact occursIn_intro _
    ("<li><a href=\"".data ++ it.url ++ "\">".data ++ htmlEscapeL it.title
      ++ "</a> — <em>".data ++ htmlEscapeL it.journal ++ "</em> (".data
      ++ htmlEscapeL it.date ++ ")".data ++ " | DOI: <a ".data)
    (">".data ++ htmlEscapeL it.doi ++ "</a>".data ++ F ++ S ++ "</li>".data) _
    (by rw [heq]; simp [List.append_assoc])

theorem htmlRow_has_escdoi_text {it : SummaryItem} (hd : it.doi ≠ [])
    (metaMap : Option (List (Str × MetaEntry))) (baseUrl : Str) :
    occursIn (htmlEscapeL it.doi) (htmlRow metaMap baseUrl it) = true := by
  obtain ⟨D, F, S, heq, hD⟩ := htmlRow_decomp metaMap baseUrl it
  rw [hD hd] at heq
  exact occursIn_intro _
    ("<li><a href=\"".data ++ it.url ++ "\">".data ++ htmlEscapeL it.title
      ++ "</a> — <em>".data ++ htmlEscapeL it.journal ++ "</em> (".data
      ++ htmlEscapeL it.date ++ ")".data ++ " | DOI: <a ".data
      ++ ("href=\"https://doi.org/".data ++ it.doi ++ "\"".data) ++ ">".data)
    ("</a>".data ++ F ++ S ++ "</li>".data) _
    (by rw [heq]; simp [List.append_assoc])

theorem pageRow_decomp (metaMap : List (Str × MetaEntry)) (it : SummaryItem) :
    ∃ D A, pageRow metaMap it
      = "\n        <section id=\"".data ++ it.pmid
        ++ "\" style=\"margin-bottom:2rem;\">\n          <h3>".data
        ++ htmlEscapeL it.title ++ "</h3>\n          <div><em>".data
        ++ htmlEscapeL it.journal ++ "</em> (".data ++ htmlEscapeL it.date
        ++ ") | PMID: <a href=\"https://pubmed.ncbi.nlm.nih.gov/".data
        ++ it.pmid ++ "/\">".data ++ it.pmid ++ "</a></div>\n          ".data
        ++ D ++ "\n          <h4>Abstract</h4>\n          <p>".data ++ A
        ++ "</p>\n          <div><a href=\"#top\">Back to top</a></div>\n        </section>\n        ".data
      ∧ (it.doi ≠ [] →
          D = "<div>DOI: <a ".data
            ++ ("href=\"https://doi.org/".data ++ htmlEscapeL it.doi
              ++ "\"".data)
            ++ ">".data ++ htmlEscapeL it.doi ++ "</a></div>".data) := by
  refine ⟨_, _, rfl, fun hd => ?_⟩
  rw [if_pos hd]

set_option maxRecDepth 10000 in
theorem pageRow_has_title (metaMap : List (Str × MetaEntry))
    (it : SummaryItem) :
    occursIn (htmlEscapeL it.title) (pageRow metaMap it) = true := by
  obtain ⟨D, A, heq, -⟩ := pageRow_decomp metaMap it
  exact occursIn_intro _
    ("\n        <section id=\"".data ++ it.pmid
      ++ "\" style=\"margin-bottom:2rem;\">\n          <h3>".data)
    ("</h3>\n          <div><em>".data ++ htmlEscapeL it.journal
      ++ "</em> (".data ++ htmlEscapeL it.date
      ++ ") | PMID: <a href=\"https://pubmed.ncbi.nlm.nih.gov/".data
      ++ it.pmid ++ "/\">".data ++ it.pmid ++ "</a></div>\n          ".data
      ++ D ++ "\n          <h4>Abstract</h4>\n          <p>".data ++ A
      ++ "</p>\n          <div><a href=\"#top\">Back to top</a></div>\n        </section>\n        ".data) _
    (by rw [heq]; simp [List.append_assoc])

set_option maxRecDepth 10000 in
theorem pageRow_has_journal (metaMap : List (Str × MetaEntry))
    (it : SummaryItem) :
    occursIn (htmlEscapeL it.journal) (pageRow metaMap it) = true := by
  obtain ⟨D, A, heq, -⟩ := pageRow_decomp metaMap it
  exact occursIn_intro _
    ("\n        <section id=\"".data ++ it.pmid
      ++ "\" style=\"margin-bottom:2rem;\">\n          <h3>".data
      ++ htmlEscapeL it.title ++ "</h3>\n          <div><em>".data)
    ("</em> (".data ++ htmlEscapeL it.date
      ++ ") | PMID: <a href=\"https://pubmed.ncbi.nlm.nih.gov/".data
      ++ it.pmid ++ "/\">".data ++ it.pmid ++ "</a></div>\n          ".data
      ++ D ++ "\n          <h4>Abstract</h4>\n          <p>".data ++ A
      ++ "</p>\n          <div><a href=\"#top\">Back to top</a></div>\n        </section>\n        ".data) _
    (by rw [heq]; simp [List.append_assoc])

set_option maxRecDepth 10000 in
theorem pageRow_has_date (metaMap : List (Str × MetaEntry))
    (it : SummaryItem) :
    occursIn (htmlEscapeL it.date) (pageRow metaMap it) = true := by
  obtain ⟨D, A, heq, -⟩ := pageRow_decomp metaMap it
  exact occursIn_intro _
    ("\n        <section id=\"".data ++ it.pmid
      ++ "\" style=\"margin-bottom:2rem;\">\n          <h3>".data
      ++ htmlEscapeL it.title ++ "</h3>\n          <div><em>".data
      ++ htmlEscapeL it.journal ++ "</em> (".data)
    (") | PMID: <a href=\"https://pubmed.ncbi.nlm.nih.gov/".data
      ++ it.pmid ++ "/\">".data ++ it.pmid ++ "</a></div>\n          ".data
      ++ D ++ "\n          <h4>Abstract</h4>\n          <p>".data ++ A
      ++ "</p>\n          <div><a href=\"#top\">Back to top</a></div>\n        </section>\n        ".data) _
    (by rw [heq]; simp [List.append_assoc])

set_option maxRecDepth 10000 in
theorem pageRow_has_escdoi_href {it : SummaryItem} (hd : it.doi ≠ [])
    (metaMap : List (Str × MetaEntry)) :
    occursIn ("href=\"https://doi.org/".data ++ htmlEscapeL it.doi
        ++ "\"".data)
      (pageRow metaMap it) = true := by
  obtain ⟨D, A, heq, hD⟩ := pageRow_decomp metaMap it
  rw [hD hd] at heq
  exact occursIn_intro _
    ("\n        <section id=\"".data ++ it.pmid
      ++ "\" style=\"margin-bottom:2rem;\">\n          <h3>".data
      ++ htmlEscapeL it.title ++ "</h3>\n          <div><em>".data
      ++ htmlEscapeL it.journal ++ "</em> (".data ++ htmlEscapeL it.date
      ++ ") | PMID: <a href=\"https://pubmed.ncbi.nlm.nih.gov/".data
      ++ it.pmid ++ "/\">".data ++ it.pmid ++ "</a></div>\n          ".data
      ++ "<div>DOI: <a ".data)
    (">".data ++ htmlEscapeL it.doi ++ "</a></div>".data
      ++ "\n          <h4>Abstract</h4>\n          <p>".data ++ A
      ++ "</p>\n          <div><a href=\"#top\">Back to top</a></div>\n        </section>\n        ".data) _
    (by rw [heq]; simp [List.append_assoc])

set_option maxRecDepth 10000 in
theorem pageRow_has_rawpmid_id (metaMap : List (Str × MetaEntry))
    (it : SummaryItem) :
    occursIn ("id=\"".data ++ it.pmid ++ "\"".data)
      (pageRow metaMap it) = true := by
  obtain ⟨D, A, heq, -⟩ := pageRow_decomp metaMap it
  have hs1 : ("\n        <section id=\"".data : Str)
      = "\n        <section ".data ++ "id=\"".data := by decide
  have hs2 : ("\" style=\"margin-bottom:2rem;\">\n          <h3>".data : Str)
      = "\"".data ++ " style=\"margin-bottom:2rem;\">\n          <h3>".data := by
    decide
  exact occursIn_intro _
    ("\n        <section ".data)
    (" style=\"margin-bottom:2rem;\">\n          <h3>".data
      ++ htmlEscapeL it.title ++ "</h3>\n          <div><em>".data
      ++ htmlEscapeL it.journal ++ "</em> (".data ++ htmlEscapeL it.date
      ++ ") | PMID: <a href=\"https://pubmed.ncbi.nlm.nih.gov/".data
      ++ it.pmid ++ "/\">".data ++ it.pmid ++ "</a></div>\n          ".data
      ++ D ++ "\n          <h4>Abstract</h4>\n          <p>".data ++ A
      ++ "</p>\n          <div><a href=\"#top\">Back to top</a></div>\n        </section>\n        ".data) _
    (by rw [heq, hs1, hs2]; simp [List.append_assoc])

/-!
## The claims

One theorem per claim, with its witness or counterexample where one is
called for.
-/

/-- C2 (amended): for every profile whose journal list is non-empty and
whose journal and keyword tokens are well formed, the query built by
`pubmed_query` contains no empty parenthesized group `()` and no
`AND`/`OR` operator with a missing operand (no leading, trailing or
adjacent operator words).  The original claim also covered the empty
journal list, which the counterexample below refutes. -/
theorem pubmed_query_no_defects (js ks : List Str) (humans : Bool)
    (hjs : js.all wfToken = true) (hks : ks.all wfToken = true)
    (hne : js ≠ []) :
    defectFreeQ (pubmedQuery js ks humans) = true :=
  pubmedQuery_defectFree hjs hks hne

/-- Counterexample to C2 as stated: with an empty journal list the query
keeps a dangling `AND` with a missing left operand. -/
theorem pubmed_query_dangling_and :
    pubmedQuery [] ["Analgesia".data] false = "AND (Analgesia)".data
    ∧ defectFreeQ (pubmedQuery [] ["Analgesia".data] false) = false := by
  decide

set_option maxRecDepth 100000 in
/-- Witness for C2: the configured profile (journals, keywords, humans
filter on) yields a defect-free query. -/
theorem pubmed_query_no_defects_check :
    defectFreeQ (pubmedQuery JOURNALS KEYWORDS true) = true :=
  pubmed_query_no_defects JOURNALS KEYWORDS true (by decide) (by decide)
    (by decide)

/-- C3 (amended): for non-empty journal and keyword lists whose tokens
are all non-empty strings (with the demographic filter off),
`pubmed_query` returns exactly `(j1 OR ... OR jn) AND (k1 OR ... OR km)`.
The original claim, over every non-empty journal and keyword list, is
refuted below: a journal list containing only the empty string joins to
a falsy `j`, the journal group is dropped, and the output is a dangling
`AND (k1 OR ... OR km)` rather than the claimed shape. -/
theorem pubmed_query_and_of_ors (js ks : List Str)
    (hjne : js ≠ []) (hkne : ks ≠ [])
    (hj : ∀ t ∈ js, t ≠ []) (hk : ∀ t ∈ ks, t ≠ []) :
    pubmedQuery js ks false
      = "(".data ++ joinSepL " OR ".data js ++ ") AND (".data
        ++ joinSepL " OR ".data ks ++ ")".data :=
  pubmedQuery_both_shape hjne hkne hj hk

/-- Witness for C3 at a one-journal, one-keyword profile. -/
theorem pubmed_query_and_of_ors_check :
    pubmedQuery ["Pain[ta]".data] ["Analgesia".data] false
      = "(".data ++ joinSepL " OR ".data ["Pain[ta]".data]
        ++ ") AND (".data ++ joinSepL " OR ".data ["Analgesia".data]
        ++ ")".data :=
  pubmed_query_and_of_ors ["Pain[ta]".data] ["Analgesia".data]
    (by decide) (by decide) (by decide) (by decide)

/-- Counterexample to C3 as stated: the journal list `[""]` is non-empty,
yet the query is `AND (Analgesia)`, not the claimed
`(j1 OR ... OR jn) AND (k1 OR ... OR km)` shape. -/
theorem pubmed_query_empty_token :
    pubmedQuery [[]] ["Analgesia".data] false = "AND (Analgesia)".data
    ∧ pubmedQuery [[]] ["Analgesia".data] false
        ≠ "(".data ++ joinSepL " OR ".data [([] : Str)] ++ ") AND (".data
          ++ joinSepL " OR ".data ["Analgesia".data] ++ ")".data := by
  decide

/-- C4: deduplication keeps a subsequence of the summary records whose
dedup keys (case-folded DOI when present, else the PMID) are pairwise
distinct; a record survives exactly when it is the first record carrying
its key, every key of the input is represented, and in particular two
records whose DOIs differ only in letter case collapse to the
first-seen one. -/
theorem dedup_first_seen_unique_keys :
    (∀ raw : List SummaryItem,
      List.Sublist (dedupItems raw) raw
      ∧ ((dedupItems raw).map dedupKey).Nodup
      ∧ (∀ r, r ∈ dedupItems raw
          ↔ raw.find? (fun x => decide (dedupKey x = dedupKey r)) = some r)
      ∧ (∀ r ∈ raw, ∃ q, q ∈ dedupItems raw ∧ dedupKey q = dedupKey r))
    ∧ dedupKey itDupA = dedupKey itDupB
    ∧ dedupItems [itDupA, itDupB] = [itDupA] := by
  refine ⟨fun raw => ⟨dedupAux_sublist [] raw, dedupAux_keys_nodup [] raw,
    fun r => dedupItems_mem_iff raw r,
    fun r hr => ?_⟩, by decide, by decide⟩
  obtain ⟨q, hq, hk⟩ := dedupItems_coverage raw r hr
  exact ⟨q, hq, hk⟩

/-- C5 (amended): ranking reorders the deduplicated items into the unique
stable descending order of the parsed sort keys, where a date that fails
to parse gets `datetime.min` as its key (so the function never raises);
the spec's ranking example holds.  The original claim that unparsable
dates sort after all parsable dates is refuted below: `0001/01/01`
parses to exactly `datetime.min`, so an unparsable item keeps its place
before such a parsable one. -/
theorem ranking_sort_spec :
    (∀ l : List SummaryItem, (sortDesc l).Perm l)
    ∧ (∀ l : List SummaryItem, sortedDesc (sortDesc l))
    ∧ (∀ (l : List SummaryItem) (k : Nat × Nat × Nat),
        (sortDesc l).filter (fun z => decide (sortKey z = k))
          = l.filter (fun z => decide (sortKey z = k)))
    ∧ (∀ it : SummaryItem, parseYMD it.date = none → sortKey it = MIN_DATE)
    ∧ sortDesc [it01, it10, itU] = [it10, it01, itU] := by
  refine ⟨sortDesc_perm, sortDesc_sorted, fun l k => sortDesc_stable l k,
    fun it h => ?_, by decide⟩
  simp [sortKey, parseSortdate, h]

/-- Counterexample to C5 as stated: `garbage` does not parse while
`0001/01/01` does, yet the unparsable item sorts before the parsable
one (both have sort key `datetime.min` and the sort is stable). -/
theorem unparsable_not_last :
    parseYMD "garbage".data = none
    ∧ parseYMD "0001/01/01".data = some (1, 1, 1)
    ∧ sortDesc [itU2, itP1] = [itU2, itP1] := by
  decide

/-- C1 (amended): for every digest item, `build_html` embeds the
HTML-escaped title, journal and date, and — when the item has a DOI —
the escaped DOI as link text, while `build_abstracts_page` embeds the
escaped title, journal and date and — when the item has a DOI — the
escaped DOI inside its `href`; but `build_html` interpolates the raw,
unescaped DOI into its `href="https://doi.org/..."` attribute and
`build_abstracts_page` interpolates the raw PMID into the `id="..."`
attribute, so the original claim that every embedded field is escaped,
including inside attribute values, fails (counterexample below). -/
theorem renderers_field_embedding (items : List SummaryItem)
    (it : SummaryItem) (mindate maxdate : Str)
    (mm : Option (List (Str × MetaEntry))) (baseUrl : Str)
    (mm2 : List (Str × MetaEntry)) (mindate2 maxdate2 : Str)
    (hit : it ∈ items) :
    occursIn (htmlEscapeL it.title)
        (buildHtml items mindate maxdate mm baseUrl) = true
    ∧ occursIn (htmlEscapeL it.journal)
        (buildHtml items mindate maxdate mm baseUrl) = true
    ∧ occursIn (htmlEscapeL it.date)
        (buildHtml items mindate maxdate mm baseUrl) = true
    ∧ (it.doi ≠ [] → occursIn (htmlEscapeL it.doi)
        (buildHtml items mindate maxdate mm baseUrl) = true)
    ∧ (it.doi ≠ [] →
        occursIn ("href=\"https://doi.org/".data ++ it.doi ++ "\"".data)
          (buildHtml items mindate maxdate mm baseUrl) = true)
    ∧ occursIn (htmlEscapeL it.title)
        (buildAbstractsPage items mm2 mindate2 maxdate2) = true
    ∧ occursIn (htmlEscapeL it.journal)
        (buildAbstractsPage items mm2 mindate2 maxdate2) = true
    ∧ occursIn (htmlEscapeL it.date)
        (buildAbstractsPage items mm2 mindate2 maxdate2) = true
    ∧ (it.doi ≠ [] →
        occursIn ("href=\"https://doi.org/".data ++ htmlEscapeL it.doi
            ++ "\"".data)
          (buildAbstractsPage items mm2 mindate2 maxdate2) = true)
    ∧ occursIn ("id=\"".data ++ it.pmid ++ "\"".data)
        (buildAbstractsPage items mm2 mindate2 maxdate2) = true :=
  ⟨occursIn_buildHtml hit (htmlRow_has_title mm baseUrl it),
    occursIn_buildHtml hit (htmlRow_has_journal mm baseUrl it),
    occursIn_buildHtml hit (htmlRow_has_date mm baseUrl it),
    fun hd => occursIn_buildHtml hit (htmlRow_has_escdoi_text hd mm baseUrl),
    fun hd => occursIn_buildHtml hit (htmlRow_has_rawdoi_href hd mm baseUrl),
    occursIn_buildPage hit (pageRow_has_title mm2 it),
    occursIn_buildPage hit (pageRow_has_journal mm2 it),
    occursIn_buildPage hit (pageRow_has_date mm2 it),
    fun hd => occursIn_buildPage hit (pageRow_has_escdoi_href hd mm2),
    occursIn_buildPage hit (pageRow_has_rawpmid_id mm2 it)⟩

set_option maxRecDepth 100000 in
/-- Counterexample to C1 as stated: a DOI containing a double quote is
interpolated raw into the `href` attribute of `build_html` (the quote
breaks out of the attribute), and the escaped form of that `href` never
occurs in the output. -/
theorem buildHtml_raw_doi_href :
    occursIn ("href=\"https://doi.org/".data ++ "10.1/a\"b".data
        ++ "\"".data)
      (buildHtml [itQ] "a".data "b".data none []) = true
    ∧ occursIn ("href=\"https://doi.org/".data
          ++ htmlEscapeL "10.1/a\"b".data ++ "\"".data)
        (buildHtml [itQ] "a".data "b".data none []) = false := by
  decide

/-- Witness for C1 at a concrete one-item digest. -/
theorem renderers_field_embedding_check :
    occursIn (htmlEscapeL itW.title)
        (buildHtml [itW] "a".data "b".data none []) = true
    ∧ occursIn (htmlEscapeL itW.journal)
        (buildHtml [itW] "a".data "b".data none []) = true
    ∧ occursIn (htmlEscapeL itW.date)
        (buildHtml [itW] "a".data "b".data none []) = true
    ∧ (itW.doi ≠ [] → occursIn (htmlEscapeL itW.doi)
        (buildHtml [itW] "a".data "b".data none []) = true)
    ∧ (itW.doi ≠ [] →
        occursIn ("href=\"https://doi.org/".data ++ itW.doi ++ "\"".data)
          (buildHtml [itW] "a".data "b".data none []) = true)
    ∧ occursIn (htmlEscapeL itW.title)
        (buildAbstractsPage [itW] [] "a".data "b".data) = true
    ∧ occursIn (htmlEscapeL itW.journal)
        (buildAbstractsPage [itW] [] "a".data "b".data) = true
    ∧ occursIn (htmlEscapeL itW.date)
        (buildAbstractsPage [itW] [] "a".data "b".data) = true
    ∧ (itW.doi ≠ [] →
        occursIn ("href=\"https://doi.org/".data ++ htmlEscapeL itW.doi
            ++ "\"".data)
          (buildAbstractsPage [itW] [] "a".data "b".data) = true)
    ∧ occursIn ("id=\"".data ++ itW.pmid ++ "\"".data)
        (buildAbstractsPage [itW] [] "a".data "b".data) = true :=
  renderers_field_embedding [itW] itW "a".data "b".data none [] []
    "a".data "b".data (by decide)

set_option maxRecDepth 10000 in
/-- C6: `build_snippet` returns `("Conclusion", trimmed conclusion)` when
the stripped conclusion is non-empty; otherwise, when the stripped
abstract is non-empty, `("From abstract", trimmed last two sentences of
the abstract, falling back to the whole abstract when sentence splitting
yields nothing)`; otherwise `(None, None)`; and the spec's two examples
hold: a lone `CONCLUSIONS` section `X Y Z.` gives
`("Conclusion", "X Y Z.")`, and abstract `A. B. C.` with no conclusion
gives `("From abstract", "B. C.")`. -/
theorem build_snippet_priority :
    (∀ me : MetaEntry, pyStripL (me.conclusion.getD []) ≠ [] →
      buildSnippet (some me)
        = (some "Conclusion".data,
           some (trimWords (pyStripL (me.conclusion.getD []))
             SNIPPET_MAX_WORDS)))
    ∧ (∀ me : MetaEntry, pyStripL (me.conclusion.getD []) = [] →
        pyStripL (me.abstract.getD []) ≠ [] →
        buildSnippet (some me)
          = (some "From abstract".data,
             some (trimWords
               (if lastSentences (pyStripL (me.abstract.getD [])) 2 ≠ []
                then lastSentences (pyStripL (me.abstract.getD [])) 2
                else pyStripL (me.abstract.getD [])) SNIPPET_MAX_WORDS)))
    ∧ (∀ me : MetaEntry, pyStripL (me.conclusion.getD []) = [] →
        pyStripL (me.abstract.getD []) = [] →
        buildSnippet (some me) = (none, none))
    ∧ buildSnippet none = (none, none)
    ∧ buildSnippet (some (extractMeta [secConcl]))
        = (some "Conclusion".data, some "X Y Z.".data)
    ∧ buildSnippet (some ⟨some "A. B. C.".data, none⟩)
        = (some "From abstract".data, some "B. C.".data) := by
  refine ⟨fun me h => ?_, fun me h1 h2 => ?_, fun me h1 h2 => ?_, rfl,
    by decide, by decide⟩
  · rw [buildSnippet_some, if_pos h]
  · rw [buildSnippet_some, if_neg (by simp [h1]), if_pos h2]
  · rw [buildSnippet_some, if_neg (by simp [h1]), if_neg (by simp [h2])]

set_option maxRecDepth 10000 in
/-- C7: `trim_words` at the limit of 70 returns a text of at most 70
words unchanged and otherwise truncates to 70 words with a trailing
ellipsis marker; in particular a 100-word text trims to exactly 70 words
ending in the marker. -/
theorem trim_words_spec :
    (∀ t, (wordsSplit t).length ≤ SNIPPET_MAX_WORDS →
      trimWords t SNIPPET_MAX_WORDS = t)
    ∧ (∀ t, SNIPPET_MAX_WORDS < (wordsSplit t).length →
        (wordsSplit (trimWords t SNIPPET_MAX_WORDS)).length
            = SNIPPET_MAX_WORDS
          ∧ ∃ s, trimWords t SNIPPET_MAX_WORDS = s ++ "…".data)
    ∧ (wordsSplit hundredWords).length = 100
    ∧ (wordsSplit (trimWords hundredWords SNIPPET_MAX_WORDS)).length
        = SNIPPET_MAX_WORDS
    ∧ ∃ s, trimWords hundredWords SNIPPET_MAX_WORDS = s ++ "…".data := by
  have main : ∀ t, SNIPPET_MAX_WORDS < (wordsSplit t).length →
      (wordsSplit (trimWords t SNIPPET_MAX_WORDS)).length
          = SNIPPET_MAX_WORDS
        ∧ ∃ s, trimWords t SNIPPET_MAX_WORDS = s ++ "…".data := by
    intro t h
    obtain ⟨rest, w, hrw, hwords⟩ :=
      trim_gt (by decide) h (t := t) (m := SNIPPET_MAX_WORDS)
    constructor
    · have hlen := congrArg List.length hrw
      simp [List.length_take, SNIPPET_MAX_WORDS] at hlen h
      rw [hwords]
      simp [List.length_append, SNIPPET_MAX_WORDS]
      omega
    · refine ⟨joinSepL " ".data ((wordsSplit t).take SNIPPET_MAX_WORDS), ?_⟩
      unfold trimWords
      rw [if_neg (by omega)]
  have hh : SNIPPET_MAX_WORDS < (wordsSplit hundredWords).length := by decide
  exact ⟨fun t h => trim_le h, main, by decide, (main hundredWords hh).1,
    (main hundredWords hh).2⟩

/-- C8: with no candidate identifiers, the HTML body and the text body
render exactly the "No new items between {start} and {end}" message, the
metadata fetch on the empty id list returns the empty map without
invoking the per-chunk fetch, and the summary stage returns no items. -/
theorem empty_window_outputs (mindate maxdate : Str)
    (mm : Option (List (Str × MetaEntry))) (baseUrl : Str)
    (fetch : List Str → List FetchedArticle) (raw : List SummaryItem) :
    buildHtml [] mindate maxdate mm baseUrl
      = "<p>No new items between ".data ++ mindate ++ " and ".data
        ++ maxdate ++ ".</p>".data
    ∧ buildText [] mindate maxdate mm baseUrl
      = "No new items between ".data ++ mindate ++ " and ".data
        ++ maxdate ++ ".".data
    ∧ efetchAbstractMap [] fetch = []
    ∧ esummaryItems [] raw = [] := by
  refine ⟨rfl, rfl, ?_, rfl⟩
  unfold efetchAbstractMap
  have h0 : chunks100 ([] : List Str) = [] := by
    rw [chunks100]
    rfl
  rw [h0]
  rfl

/-- C9: a snippet produced by `build_snippet` fabricates no text: its
words are, apart from the ellipsis marker appended to the last word when
the text was truncated, a contiguous-order selection of the words of the
source text the snippet was extracted from (the conclusion when its
stripped form is non-empty, else the abstract). -/
theorem snippet_no_fabrication (me : MetaEntry) (lab snip : Str)
    (h : buildSnippet (some me) = (some lab, some snip)) :
    ∃ ws0, List.Sublist ws0 (wordsSplit (snippetSource me))
      ∧ (wordsSplit snip = ws0
        ∨ ∃ rest w, ws0 = rest ++ [w]
            ∧ wordsSplit snip = rest ++ [w ++ "…".data]) :=
  buildSnippet_words h

/-- Witness for C9 at the spec's abstract-tail example. -/
theorem snippet_no_fabrication_check :
    ∃ ws0, List.Sublist ws0
        (wordsSplit (snippetSource ⟨some "A. B. C.".data, none⟩))
      ∧ (wordsSplit "B. C.".data = ws0
        ∨ ∃ rest w, ws0 = rest ++ [w]
            ∧ wordsSplit "B. C.".data = rest ++ [w ++ "…".data]) :=
  snippet_no_fabrication ⟨some "A. B. C.".data, none⟩ "From abstract".data
    "B. C.".data (by decide)

/-- C10: per parsed article, the abstract field is the space-joined
concatenation of the non-empty section texts in document order and the
conclusion field the concatenation of exactly the non-empty section
texts whose label or category contains "conclusion" case-insensitively;
the conclusion sections are a subsequence of the abstract ones, a
non-`None` conclusion forces a non-`None` abstract containing every
conclusion-contributing section text, and neither field is ever the
empty string; the spec's `CONCLUSIONS` example holds. -/
theorem extract_meta_fields (secs : List AbsSection) :
    (extractMeta secs).abstract
      = (if abstractTexts secs ≠ []
         then some (joinSepL " ".data (abstractTexts secs)) else none)
    ∧ (extractMeta secs).conclusion
      = (if conclusionTexts secs ≠ []
         then some (joinSepL " ".data (conclusionTexts secs)) else none)
    ∧ List.Sublist (conclusionTexts secs) (abstractTexts secs)
    ∧ (∀ c, (extractMeta secs).conclusion = some c →
        ∃ a, (extractMeta secs).abstract = some a
          ∧ (∀ t ∈ conclusionTexts secs, occursIn t a = true)
          ∧ a ≠ [] ∧ c ≠ [])
    ∧ extractMeta [secConcl]
        = ⟨some "X Y Z.".data, some "X Y Z.".data⟩ := by
  have habs : (extractMeta secs).abstract
      = (if abstractTexts secs ≠ []
         then some (joinSepL " ".data (abstractTexts secs)) else none) := by
    by_cases h : abstractTexts secs ≠ []
    · simp only [extractMeta, if_pos h]
      rw [pyStrip_joinSep_abstract h]
    · simp only [extractMeta, if_neg h]
  have hcon : (extractMeta secs).conclusion
      = (if conclusionTexts secs ≠ []
         then some (joinSepL " ".data (conclusionTexts secs)) else none) := by
    by_cases h : conclusionTexts secs ≠ []
    · simp only [extractMeta, if_pos h]
      rw [pyStrip_joinSep_conclusion h]
    · simp only [extractMeta, if_neg h]
  refine ⟨habs, hcon, conclusionTexts_sublist secs, fun c hc => ?_, by decide⟩
  rw [hcon] at hc
  by_cases h : conclusionTexts secs ≠ []
  · rw [if_pos h] at hc
    have hane : abstractTexts secs ≠ [] := conclusionTexts_ne_nil_abstract h
    refine ⟨joinSepL " ".data (abstractTexts secs), ?_, ?_, ?_, ?_⟩
    · rw [habs, if_pos hane]
    · exact fun t ht => occursIn_joinSep_mem
        ((conclusionTexts_sublist secs).subset ht) _
    · exact joinSep_abstract_ne_nil hane
    · rw [← Option.some.inj hc]
      exact joinSep_conclusion_ne_nil h
  · rw [if_neg h] at hc
    exact absurd hc (by simp)

end PainBot
